import Mathlib

/-!
# Verification of the Tate-algebra arithmetic engine

A shallow embedding of the Tate-algebra element/term arithmetic
(`TateAlgebraTerm`, `TateAlgebraElement`) and proofs of the stated
properties.

Modelling choices:
* The base complete discrete valuation ring/field is modelled by exact
  rationals `ℚ` equipped with the 2-adic valuation (uniformizer `2`);
  a boolean flag on the ambient algebra records whether the base is a
  field (the `Qp` case) or not (the `Zp` case).  Digit truncation
  `c.add_bigoh(n)` on base-ring elements is modelled by the canonical
  2-adic truncation of a rational with these digits.
* The ambient algebra (an external collaborator of the engine) is a
  record of variable names, integer log-radii, the field flag, the
  precision cap and the absolute ramification index of the base ring.
  Its monomial order `sortkey` is instantiated with the lexicographic
  order on exponent vectors (any admissible, hence injective, sortkey).
* A polynomial (`_poly`) is a reduced finite mapping from exponent
  vectors to nonzero coefficients, represented canonically as an
  association list strictly sorted by the lexicographic order on keys.
* Absolute precision lives in `WithTop ℤ` (`⊤` is Sage's `Infinity`).
* The unbounded `while` loops (`quo_rem`, the Newton iteration) are
  embedded with explicit fuel.
All recursion is structural so every definition evaluates by kernel
reduction (`decide`).
-/

namespace TateAlg

/-! ## The 2-adic valuation on `ℚ`, executable -/

/-- Fuel-driven count of the factors of 2 of a natural number. -/
def v2F : ℕ → ℕ → ℕ
  | 0, _ => 0
  | fuel + 1, n => if n % 2 = 0 ∧ n ≠ 0 then v2F fuel (n / 2) + 1 else 0

/-- The number of factors of 2 of a natural number (`v2 0 = 0`). -/
def v2 (n : ℕ) : ℕ := v2F n n

theorem v2F_spec : ∀ (fuel n : ℕ), n ≤ fuel → n ≠ 0 →
    2 ^ (v2F fuel n) ∣ n ∧ ¬ 2 ^ (v2F fuel n + 1) ∣ n := by
  intro fuel
  induction fuel with
  | zero => intro n hn hn0; omega
  | succ fuel ih =>
    intro n hn hn0
    by_cases h2 : n % 2 = 0
    · have hrec := ih (n / 2) (by omega) (by omega)
      have hstep : v2F (fuel + 1) n = v2F fuel (n / 2) + 1 := by
        simp [v2F, h2, hn0]
      rw [hstep]
      obtain ⟨hdvd, hndvd⟩ := hrec
      have hn2 : n = 2 * (n / 2) := by omega
      set v := v2F fuel (n / 2) with hv
      constructor
      · obtain ⟨k, hk⟩ := hdvd
        refine ⟨k, ?_⟩
        calc n = 2 * (n / 2) := hn2
          _ = 2 * (2 ^ v * k) := by rw [hk]
          _ = 2 ^ (v + 1) * k := by rw [pow_succ]; ring
      · intro hcon
        apply hndvd
        obtain ⟨k, hk⟩ := hcon
        refine ⟨k, ?_⟩
        have hk2 : n = 2 * (2 ^ (v + 1) * k) := by
          rw [hk, pow_succ]
          ring
        omega
    · have hstep : v2F (fuel + 1) n = 0 := by
        simp [v2F, h2]
      rw [hstep]
      refine ⟨one_dvd _, ?_⟩
      intro hcon
      rw [pow_one] at hcon
      omega

theorem v2_spec (n : ℕ) (hn : n ≠ 0) :
    2 ^ (v2 n) ∣ n ∧ ¬ 2 ^ (v2 n + 1) ∣ n :=
  v2F_spec n n le_rfl hn

/-- `v2` agrees with Mathlib's `padicValNat 2` on nonzero inputs. -/
theorem v2_eq_padicValNat (n : ℕ) (hn : n ≠ 0) : v2 n = padicValNat 2 n := by
  obtain ⟨hdvd, hndvd⟩ := v2_spec n hn
  have h1 : v2 n ≤ padicValNat 2 n := (padicValNat_dvd_iff_le hn).1 hdvd
  have h2 : ¬ (v2 n + 1 ≤ padicValNat 2 n) := fun hcon =>
    hndvd ((padicValNat_dvd_iff_le hn).2 hcon)
  omega

/-- The 2-adic valuation of a rational number; junk value `0` at `0`
(the engine only evaluates it on nonzero coefficients). -/
def qval (q : ℚ) : ℤ := (v2 q.num.natAbs : ℤ) - (v2 q.den : ℤ)

/-- `qval` agrees with Mathlib's `padicValRat 2` on nonzero inputs. -/
theorem qval_eq_padicValRat (q : ℚ) (hq : q ≠ 0) : qval q = padicValRat 2 q := by
  have hnum : q.num ≠ 0 := Rat.num_ne_zero.2 hq
  have hden : q.den ≠ 0 := q.den_nz
  rw [qval, padicValRat, padicValInt,
    v2_eq_padicValNat _ (Int.natAbs_ne_zero.2 hnum), v2_eq_padicValNat _ hden]

/-- The 2-adic valuation with value `⊤` at `0` (Sage's
`c.valuation()` on the base ring, which returns `+Infinity` at zero). -/
def qvalT (q : ℚ) : WithTop ℤ := if q = 0 then ⊤ else (qval q : WithTop ℤ)

theorem qvalT_zero : qvalT 0 = ⊤ := by simp [qvalT]

theorem qvalT_ne_zero (q : ℚ) (hq : q ≠ 0) : qvalT q = (qval q : WithTop ℤ) := by
  simp [qvalT, hq]

theorem qvalT_mul (a b : ℚ) : qvalT (a * b) = qvalT a + qvalT b := by
  by_cases ha : a = 0
  · simp [ha, qvalT]
  by_cases hb : b = 0
  · simp [hb, qvalT]
  have hab : a * b ≠ 0 := mul_ne_zero ha hb
  rw [qvalT_ne_zero _ ha, qvalT_ne_zero _ hb, qvalT_ne_zero _ hab,
    qval_eq_padicValRat _ ha, qval_eq_padicValRat _ hb, qval_eq_padicValRat _ hab,
    padicValRat.mul ha hb]
  push_cast
  ring

theorem qvalT_add (a b : ℚ) : min (qvalT a) (qvalT b) ≤ qvalT (a + b) := by
  by_cases ha : a = 0
  · simp [ha]
  by_cases hb : b = 0
  · simp [hb]
  by_cases hab : a + b = 0
  · simp [hab, qvalT_zero]
  rw [qvalT_ne_zero _ ha, qvalT_ne_zero _ hb, qvalT_ne_zero _ hab,
    qval_eq_padicValRat _ ha, qval_eq_padicValRat _ hb, qval_eq_padicValRat _ hab]
  have h := @padicValRat.min_le_padicValRat_add 2 _ a b hab
  exact_mod_cast h

theorem qvalT_neg (a : ℚ) : qvalT (-a) = qvalT a := by
  by_cases ha : a = 0
  · simp [ha]
  have hna : -a ≠ 0 := neg_ne_zero.2 ha
  rw [qvalT_ne_zero _ ha, qvalT_ne_zero _ hna,
    qval_eq_padicValRat _ ha, qval_eq_padicValRat _ hna, padicValRat.neg]

theorem qvalT_sub (a b : ℚ) : min (qvalT a) (qvalT b) ≤ qvalT (a - b) := by
  have h := qvalT_add a (-b)
  rw [qvalT_neg] at h
  rw [sub_eq_add_neg]
  exact h

/-- The uniformizer (2) raised to an integer power, in the fraction field. -/
def two_zpow (k : ℤ) : ℚ := (2 : ℚ) ^ k

theorem two_zpow_ne_zero (k : ℤ) : two_zpow k ≠ 0 :=
  zpow_ne_zero k (by norm_num)

theorem qvalT_two_zpow (k : ℤ) : qvalT (two_zpow k) = (k : WithTop ℤ) := by
  rw [qvalT_ne_zero _ (two_zpow_ne_zero k), qval_eq_padicValRat _ (two_zpow_ne_zero k)]
  norm_cast
  rcases le_or_lt 0 k with hk | hk
  · obtain ⟨m, rfl⟩ := Int.eq_ofNat_of_zero_le hk
    rw [two_zpow, zpow_natCast]
    have h := @padicValRat.pow 2 _ 2 (by norm_num) m
    have h2 : padicValRat 2 (2 : ℚ) = 1 := by
      have h3 := @padicValRat.self 2 (by norm_num)
      norm_num at h3
      exact h3
    rw [h, h2]
    ring
  · obtain ⟨m, rfl⟩ : ∃ m : ℕ, k = -(m : ℤ) := by
      refine ⟨k.natAbs, ?_⟩
      omega
    rw [two_zpow, zpow_neg, zpow_natCast]
    have h := @padicValRat.self_pow_inv 2 _ m
    exact_mod_cast h

theorem qval_two_zpow (k : ℤ) : qval (two_zpow k) = k := by
  have h := qvalT_two_zpow k
  rw [qvalT_ne_zero _ (two_zpow_ne_zero k)] at h
  exact_mod_cast h

theorem two_zpow_add (j k : ℤ) : two_zpow (j + k) = two_zpow j * two_zpow k := by
  rw [two_zpow, two_zpow, two_zpow, zpow_add₀ (by norm_num : (2:ℚ) ≠ 0)]

theorem two_zpow_zero : two_zpow 0 = 1 := by
  rw [two_zpow, zpow_zero]

/-! ## Exponent vectors and the monomial order

The ambient algebra's admissible monomial order (`term_order().sortkey`)
is instantiated with the lexicographic order on exponent vectors. -/

/-- Exponent vector: the model of `ETuple`. -/
abbrev Expv := List ℕ

/-- `ETuple.eadd`: componentwise sum. -/
def eadd (a b : Expv) : Expv := List.zipWith (· + ·) a b

/-- `ETuple.esub`: componentwise difference (callers check nonnegativity). -/
def esub (a b : Expv) : Expv := List.zipWith (· - ·) a b

/-- `ETuple.emin`: componentwise minimum. -/
def emin (a b : Expv) : Expv := List.zipWith min a b

/-- `ETuple.emax`: componentwise maximum. -/
def emax (a b : Expv) : Expv := List.zipWith max a b

/-- The lexicographic comparison on exponent vectors: the model of the
ambient term order's `sortkey` comparison. -/
def lexCmp : Expv → Expv → Ordering
  | [], [] => .eq
  | [], _ :: _ => .lt
  | _ :: _, [] => .gt
  | a :: as, b :: bs => (compare a b).then (lexCmp as bs)

theorem lexCmp_eq_iff : ∀ (a b : Expv), lexCmp a b = .eq ↔ a = b := by
  intro a
  induction a with
  | nil =>
    intro b
    cases b with
    | nil => simp [lexCmp]
    | cons x xs => simp [lexCmp]
  | cons x xs ih =>
    intro b
    cases b with
    | nil => simp [lexCmp]
    | cons y ys =>
      simp only [lexCmp]
      constructor
      · intro h
        have hx : compare x y = .eq := by
          cases hc : compare x y
          · rw [hc] at h
            exact absurd h (by simp [Ordering.then])
          · rfl
          · rw [hc] at h
            exact absurd h (by simp [Ordering.then])
        have hxy : x = y := Nat.compare_eq_eq.1 hx
        have hrest : lexCmp xs ys = .eq := by
          rw [hx] at h
          simpa [Ordering.then] using h
        rw [hxy, (ih ys).1 hrest]
      · intro h
        injection h with h1 h2
        subst h1
        subst h2
        have hc : compare x x = Ordering.eq := Nat.compare_eq_eq.2 rfl
        rw [hc]
        simpa [Ordering.then] using (ih xs).2 rfl

theorem then_eq_lt (o p : Ordering) :
    o.then p = .lt ↔ (o = .lt ∨ (o = .eq ∧ p = .lt)) := by
  cases o <;> simp [Ordering.then]

theorem then_eq_gt (o p : Ordering) :
    o.then p = .gt ↔ (o = .gt ∨ (o = .eq ∧ p = .gt)) := by
  cases o <;> simp [Ordering.then]

theorem then_eq_eq (o p : Ordering) :
    o.then p = .eq ↔ (o = .eq ∧ p = .eq) := by
  cases o <;> simp [Ordering.then]

theorem lexCmp_self (a : Expv) : lexCmp a a = .eq := (lexCmp_eq_iff a a).2 rfl

theorem lexCmp_swap : ∀ (a b : Expv), lexCmp b a = (lexCmp a b).swap := by
  intro a
  induction a with
  | nil =>
    intro b
    cases b with
    | nil => rfl
    | cons y ys => rfl
  | cons x xs ih =>
    intro b
    cases b with
    | nil => rfl
    | cons y ys =>
      simp only [lexCmp]
      rcases Nat.lt_trichotomy x y with hxy | hxy | hxy
      · have h1 : compare x y = .lt := Nat.compare_eq_lt.2 hxy
        have h2 : compare y x = .gt := Nat.compare_eq_gt.2 hxy
        rw [h1, h2]
        rfl
      · have h1 : compare x y = .eq := Nat.compare_eq_eq.2 hxy
        have h2 : compare y x = .eq := Nat.compare_eq_eq.2 hxy.symm
        rw [h1, h2]
        simpa [Ordering.then] using ih ys
      · have h1 : compare x y = .gt := Nat.compare_eq_gt.2 hxy
        have h2 : compare y x = .lt := Nat.compare_eq_lt.2 hxy
        rw [h1, h2]
        rfl

theorem lexCmp_lt_trans : ∀ (a b c : Expv),
    lexCmp a b = .lt → lexCmp b c = .lt → lexCmp a c = .lt := by
  intro a
  induction a with
  | nil =>
    intro b c hab hbc
    cases b with
    | nil => exact absurd hab (by simp [lexCmp])
    | cons y ys =>
      cases c with
      | nil => exact absurd hbc (by simp [lexCmp])
      | cons z zs => simp [lexCmp]
  | cons x xs ih =>
    intro b c hab hbc
    cases b with
    | nil => exact absurd hab (by simp [lexCmp])
    | cons y ys =>
      cases c with
      | nil => exact absurd hbc (by simp [lexCmp])
      | cons z zs =>
        simp only [lexCmp] at hab hbc ⊢
        rw [then_eq_lt] at hab hbc ⊢
        rcases hab with hab | ⟨hab, hab2⟩ <;> rcases hbc with hbc | ⟨hbc, hbc2⟩
        · exact Or.inl (Nat.compare_eq_lt.2
            (lt_trans (Nat.compare_eq_lt.1 hab) (Nat.compare_eq_lt.1 hbc)))
        · have heq : y = z := Nat.compare_eq_eq.1 hbc
          subst heq
          exact Or.inl hab
        · have heq : x = y := Nat.compare_eq_eq.1 hab
          subst heq
          exact Or.inl hbc
        · have heq : x = y := Nat.compare_eq_eq.1 hab
          subst heq
          exact Or.inr ⟨hbc, ih ys zs hab2 hbc2⟩

/-- Adding a fixed exponent vector on the left preserves the
lexicographic comparison (on vectors of matching lengths). -/
theorem lexCmp_eadd : ∀ (s a b : Expv), a.length = s.length → b.length = s.length →
    lexCmp (eadd s a) (eadd s b) = lexCmp a b := by
  intro s
  induction s with
  | nil =>
    intro a b ha hb
    rw [List.length_nil, List.length_eq_zero] at ha hb
    subst ha
    subst hb
    rfl
  | cons v vs ih =>
    intro a b ha hb
    cases a with
    | nil => exact absurd ha (by simp)
    | cons x xs =>
      cases b with
      | nil => exact absurd hb (by simp)
      | cons y ys =>
        simp only [eadd, List.zipWith_cons_cons, lexCmp]
        have hcomp : compare (v + x) (v + y) = compare x y := by
          rcases Nat.lt_trichotomy x y with hxy | hxy | hxy
          · rw [Nat.compare_eq_lt.2 hxy, Nat.compare_eq_lt.2 (by omega)]
          · rw [hxy]
            rw [Nat.compare_eq_eq.2 rfl, Nat.compare_eq_eq.2 rfl]
          · rw [Nat.compare_eq_gt.2 hxy, Nat.compare_eq_gt.2 (by omega)]
        rw [hcomp]
        have hrest : lexCmp (eadd vs xs) (eadd vs ys) = lexCmp xs ys := by
          apply ih
          · simpa using ha
          · simpa using hb
        simp only [eadd] at hrest
        rw [hrest]

/-! ## Terms: the model of `TateAlgebraTerm`

A term is an immutable coefficient–exponent pair.  The coefficient
lives in the fraction field of the base ring (here: `ℚ`). -/

structure TateAlgebraTerm where
  coeff : ℚ
  exponent : Expv
deriving DecidableEq

/-- The ambient algebra: the external collaborator supplying variable
names, log-radii, the base-ring field flag, the precision cap and the
base ring's absolute ramification index (`absolute_e()`). -/
structure TateAlgebra where
  names : List String
  log_radii : List ℤ
  is_field : Bool
  cap : ℤ
  abs_e : ℕ
deriving DecidableEq

def TateAlgebra.ngens (A : TateAlgebra) : ℕ := A.names.length

/-- `Σ exponent[i] * log_radii[i]`. -/
def wdeg (lr : List ℤ) (e : Expv) : ℤ :=
  (List.zipWith (fun r x => r * (x : ℤ)) lr e).sum

namespace TateAlgebraTerm

/-- `TateAlgebraTerm.valuation`:
`coefficient valuation − Σ exponent[i]·log_radii[i]`.
(The engine only evaluates this on nonzero coefficients; Sage would
return `+Infinity` for a zero coefficient.) -/
def valuation (A : TateAlgebra) (t : TateAlgebraTerm) : ℤ :=
  qval t.coeff - wdeg A.log_radii t.exponent

/-- `TateAlgebraTerm._mul_`: coefficient product, exponent sum. -/
def mul (t u : TateAlgebraTerm) : TateAlgebraTerm :=
  ⟨t.coeff * u.coeff, eadd t.exponent u.exponent⟩

/-- `TateAlgebraTerm._cmp_`: primary key descending valuation, secondary
key the monomial order's sortkey of the exponent. -/
def cmp (A : TateAlgebra) (t u : TateAlgebraTerm) : Ordering :=
  (compare (-(valuation A t)) (-(valuation A u))).then
    (lexCmp t.exponent u.exponent)

/-- `TateAlgebraTerm.gcd`: exponent-wise min; the coefficient is the
uniformizer raised to the min of the two **coefficient** valuations. -/
def gcd (t u : TateAlgebraTerm) : TateAlgebraTerm :=
  ⟨two_zpow (min (qval t.coeff) (qval u.coeff)), emin t.exponent u.exponent⟩

/-- `TateAlgebraTerm.lcm`: exponent-wise max; the coefficient is the
uniformizer raised to the max of the two **coefficient** valuations. -/
def lcm (t u : TateAlgebraTerm) : TateAlgebraTerm :=
  ⟨two_zpow (max (qval t.coeff) (qval u.coeff)), emax t.exponent u.exponent⟩

/-- Componentwise `≥` test on exponent vectors (the divisibility loop). -/
def expGe : Expv → Expv → Bool
  | _, [] => true
  | [], _ :: _ => true
  | a :: as, b :: bs => decide (b ≤ a) && expGe as bs

/-- `TateAlgebraTerm.is_divisible_by`. -/
def is_divisible_by (A : TateAlgebra) (t u : TateAlgebraTerm)
    (integral : Bool) : Bool :=
  if (integral || !A.is_field) && decide (valuation A t < valuation A u) then
    false
  else
    expGe t.exponent u.exponent

/-- The unchecked exact quotient of terms. -/
def quot (t u : TateAlgebraTerm) : TateAlgebraTerm :=
  ⟨t.coeff / u.coeff, esub t.exponent u.exponent⟩

/-- `TateAlgebraTerm.__floordiv__`: checked exact quotient. -/
def floordiv (A : TateAlgebra) (t u : TateAlgebraTerm) :
    Except String TateAlgebraTerm :=
  if !A.is_field && decide (valuation A t < valuation A u) then
    .error ("The division is not exact")
  else if !expGe t.exponent u.exponent then
    .error ("The division is not exact")
  else
    .ok (quot t u)

/-- When `is_divisible_by` holds, `floordiv` succeeds with the
unchecked quotient (the `//` inside `quo_rem` never raises). -/
theorem floordiv_of_divisible (A : TateAlgebra) (t u : TateAlgebraTerm)
    (integral : Bool) (h : is_divisible_by A t u integral = true) :
    floordiv A t u = .ok (quot t u) := by
  rw [is_divisible_by] at h
  by_cases hd : ((integral || !A.is_field) && decide (valuation A t < valuation A u)) = true
  · simp [hd] at h
  · have hge : expGe t.exponent u.exponent = true := by
      simpa [hd] using h
    have hc : (!A.is_field && decide (valuation A t < valuation A u)) = false := by
      apply Bool.eq_false_iff.mpr
      intro hcon
      apply hd
      simp only [Bool.and_eq_true, Bool.or_eq_true] at hcon ⊢
      exact ⟨Or.inr hcon.1, hcon.2⟩
    rw [floordiv]
    simp [hc, hge]

end TateAlgebraTerm

/-! ## Digit truncation on the base ring

`c.add_bigoh(n)` on a capped-relative p-adic coefficient keeps the
digits below `2^n`.  On the exact model the truncation of `c = 2^v·u`
(`u` an odd-denominator, odd-numerator rational) is `2^v·(u mod 2^{n-v})`,
computed with a Newton–Hensel modular inverse of the odd denominator. -/

/-- Newton iteration for the inverse of an odd `b` modulo `M = 2^m`:
each step doubles the number of correct binary digits. -/
def invIter (b M : ℤ) : ℕ → ℤ → ℤ
  | 0, x => x
  | k + 1, x => invIter b M k ((x * (2 - b * x)) % M)

/-- Inverse of an odd `b` modulo `2^m`. -/
def oddInv (b : ℤ) (m : ℕ) : ℤ := invIter b (2 ^ m) m 1

/-- Canonical residue of an odd-denominator rational modulo `2^m`:
the unique `r ∈ [0, 2^m)` with `c ≡ r`. -/
def qmodPow (c : ℚ) (m : ℕ) : ℤ :=
  (c.num * oddInv (c.den : ℤ) m) % (2 ^ m : ℤ)

/-- Truncation of a rational to absolute 2-adic precision `n`
(the model of `c.add_bigoh(n)` on the base ring, finite case). -/
def truncQZ (n : ℤ) (c : ℚ) : ℚ :=
  if c = 0 then 0
  else if n ≤ qval c then 0
  else two_zpow (qval c) * ((qmodPow (c * two_zpow (-(qval c))) (n - qval c).toNat : ℤ) : ℚ)

/-- Truncation of a rational to absolute 2-adic precision `N ∈ ℤ ∪ {∞}`. -/
def truncQ (N : WithTop ℤ) (c : ℚ) : ℚ :=
  if N = ⊤ then c else truncQZ (N.untop' 0) c

/-! ## Reduced polynomials

The finite mapping `exponent → coefficient` (`_poly`) is represented
canonically: an association list strictly sorted by `lexCmp` on the
keys, storing no zero coefficient. -/

abbrev Poly := List (Expv × ℚ)

/-- Coefficient lookup. -/
def pCoeff (p : Poly) (e : Expv) : ℚ :=
  match p with
  | [] => 0
  | ec :: rest => if e = ec.1 then ec.2 else pCoeff rest e

/-- Insert-add a single coefficient, keeping the canonical form. -/
def insT (e : Expv) (c : ℚ) : Poly → Poly
  | [] => if c = 0 then [] else [(e, c)]
  | ec :: rest =>
    match lexCmp e ec.1 with
    | .lt => if c = 0 then ec :: rest else (e, c) :: ec :: rest
    | .eq => if c + ec.2 = 0 then rest else (e, c + ec.2) :: rest
    | .gt => ec :: insT e c rest

/-- Canonicalize an arbitrary list of exponent–coefficient pairs
(the model of the external polynomial-ring constructor `S(...)`,
which merges duplicates and drops zero coefficients). -/
def canonP (l : List (Expv × ℚ)) : Poly :=
  l.foldl (fun acc ec => insT ec.1 ec.2 acc) []

/-- Sum of two polynomials. -/
def addP (p q : Poly) : Poly :=
  q.foldl (fun acc ec => insT ec.1 ec.2 acc) p

/-- Negation. -/
def negP (p : Poly) : Poly := p.map fun ec => (ec.1, -ec.2)

/-- Difference. -/
def subP (p q : Poly) : Poly := addP p (negP q)

/-- Scaling by a base-ring element. -/
def scaleP (c : ℚ) (p : Poly) : Poly :=
  if c = 0 then [] else p.map fun ec => (ec.1, c * ec.2)

/-- One term times a polynomial (raw list; consumers re-canonicalize). -/
def mulTermP (e0 : Expv) (c0 : ℚ) (q : Poly) : List (Expv × ℚ) :=
  q.map fun ec => (eadd e0 ec.1, c0 * ec.2)

/-- Polynomial product. -/
def mulP (p q : Poly) : Poly :=
  p.foldl (fun acc ec => addP acc (mulTermP ec.1 ec.2 q)) []

/-- Coefficientwise truncation of a polynomial at absolute precision `N`
(the `reduce` step of `__init__`: `map_coefficients(lambda c:
c.add_bigoh(self._prec))`, with coefficients that truncate to zero
dropped from the reduced mapping). -/
def reduceP (N : WithTop ℤ) (p : Poly) : Poly :=
  p.foldr
    (fun ec acc =>
      if truncQ N ec.2 = 0 then acc else (ec.1, truncQ N ec.2) :: acc) []

/-! ## Correctness of the modular inverse and the truncation -/

theorem invIter_one (M : ℤ) (hM : 1 < M) : ∀ (k : ℕ), invIter 1 M k 1 = 1 := by
  intro k
  induction k with
  | zero => rfl
  | succ k ih =>
    rw [invIter]
    have h1 : ((1 : ℤ) * (2 - 1 * 1)) % M = 1 := by
      have : ((1 : ℤ) * (2 - 1 * 1)) = 1 := by ring
      rw [this]
      exact Int.emod_eq_of_lt (by norm_num) hM
    rw [h1, ih]

theorem invIter_spec (b : ℤ) (m : ℕ) (hm : 1 ≤ m) :
    ∀ (k : ℕ) (x : ℤ) (j : ℕ), 1 ≤ j → (2:ℤ)^j ∣ (b * x - 1) →
      (2:ℤ)^(min (j * 2^k) m) ∣ (b * invIter b (2^m) k x - 1) := by
  intro k
  induction k with
  | zero =>
    intro x j hj hd
    rw [invIter]
    refine dvd_trans (pow_dvd_pow 2 ?_) hd
    calc min (j * 2^0) m ≤ j * 2^0 := min_le_left _ _
      _ = j := by ring
  | succ k ih =>
    intro x j hj hd
    rw [invIter]
    have hstep : (2:ℤ)^(min (2*j) m) ∣ (b * ((x * (2 - b * x)) % 2^m) - 1) := by
      have h1 : b * ((x * (2 - b * x)) % 2^m) - 1 =
          (b * (x * (2 - b * x)) - 1) +
            b * (((x * (2 - b * x)) % 2^m) - x * (2 - b * x)) := by
        ring
      have h2 : (2:ℤ)^(2*j) ∣ (b * (x * (2 - b * x)) - 1) := by
        have heq : b * (x * (2 - b * x)) - 1 = -((b * x - 1)^2) := by ring
        rw [heq]
        refine dvd_neg.mpr ?_
        rw [two_mul, pow_add, sq]
        exact mul_dvd_mul hd hd
      have h3 : (2:ℤ)^m ∣ (((x * (2 - b * x)) % 2^m) - x * (2 - b * x)) := by
        have heq : ((x * (2 - b * x)) % 2^m) - x * (2 - b * x) =
            -((2:ℤ)^m * ((x * (2 - b * x)) / 2^m)) := by
          rw [Int.emod_def]
          ring
        rw [heq]
        exact dvd_neg.mpr (dvd_mul_right _ _)
      rw [h1]
      refine dvd_add (dvd_trans (pow_dvd_pow 2 (min_le_left _ _)) h2) ?_
      exact dvd_mul_of_dvd_right (dvd_trans (pow_dvd_pow 2 (min_le_right _ _)) h3) b
    have hj' : 1 ≤ min (2*j) m := by
      refine le_min (by omega) hm
    have ih2 := ih ((x * (2 - b * x)) % 2^m) (min (2*j) m) hj' hstep
    refine dvd_trans (pow_dvd_pow 2 ?_) ih2
    rcases le_total (2*j) m with h | h
    · rw [min_eq_left h]
      have heq : 2*j*2^k = j*2^(k+1) := by
        rw [pow_succ]
        ring
      rw [heq]
    · rw [min_eq_right h]
      have h2 : m ≤ m * 2^k := by
        have h3 : 0 < 2^k := Nat.pos_pow_of_pos k (by norm_num)
        calc m = m * 1 := by ring
          _ ≤ m * 2^k := Nat.mul_le_mul_left m h3
      rw [min_eq_right h2]
      exact min_le_right _ _

theorem oddInv_spec (b : ℤ) (m : ℕ) (hm : 1 ≤ m) (hb : ¬ (2:ℤ) ∣ b) :
    (2:ℤ)^m ∣ (b * oddInv b m - 1) := by
  rw [oddInv]
  have hseed : (2:ℤ)^1 ∣ (b * 1 - 1) := by
    rw [pow_one, mul_one]
    omega
  have h := invIter_spec b m hm m 1 1 le_rfl hseed
  refine dvd_trans (pow_dvd_pow 2 ?_) h
  have h2 : m ≤ 1 * 2^m := by
    rw [one_mul]
    exact le_of_lt (Nat.lt_two_pow m)
  rw [min_eq_right]
  rw [one_mul]
  exact le_of_lt (Nat.lt_two_pow m)

theorem oddInv_odd (b : ℤ) (m : ℕ) (hm : 1 ≤ m) (hb : ¬ (2:ℤ) ∣ b) :
    ¬ (2:ℤ) ∣ oddInv b m := by
  intro hcon
  have h := oddInv_spec b m hm hb
  have h2 : (2:ℤ) ∣ (b * oddInv b m - 1) := by
    refine dvd_trans ?_ h
    exact dvd_pow_self 2 (by omega)
  have h3 : (2:ℤ) ∣ b * oddInv b m := dvd_mul_of_dvd_right hcon b
  omega

theorem v2_one : v2 1 = 0 := rfl

theorem intCast_val_ge (m : ℕ) (z : ℤ) (h : (2:ℤ)^m ∣ z) :
    ((m : ℤ) : WithTop ℤ) ≤ qvalT ((z : ℚ)) := by
  by_cases hz : z = 0
  · rw [hz]
    push_cast
    rw [qvalT_zero]
    exact le_top
  have hcast : ((z : ℚ)) ≠ 0 := Int.cast_ne_zero.2 hz
  rw [qvalT_ne_zero _ hcast]
  rw [show qval ((z : ℚ)) = (v2 z.natAbs : ℤ) - (v2 ((z : ℚ)).den : ℤ) from by
    rw [qval, Rat.intCast_num]]
  rw [Rat.intCast_den, v2_one]
  have hdvd : 2^m ∣ z.natAbs := by
    have h2 : ((2:ℤ)^m).natAbs ∣ z.natAbs := Int.natAbs_dvd_natAbs.2 h
    have h3 : ((2:ℤ)^m).natAbs = 2^m := by
      rw [Int.natAbs_pow]
      rfl
    rw [h3] at h2
    exact h2
  have hv2 : m ≤ v2 z.natAbs := by
    rw [v2_eq_padicValNat _ (Int.natAbs_ne_zero.2 hz)]
    exact (padicValNat_dvd_iff_le (Int.natAbs_ne_zero.2 hz)).1 hdvd
  have : (m : ℤ) ≤ (v2 z.natAbs : ℤ) - (v2 1 : ℤ) := by
    rw [v2_one]
    push_cast
    omega
  exact_mod_cast this

theorem v2_zero_not_dvd (n : ℕ) (hn : n ≠ 0) (hv : v2 n = 0) : ¬ 2 ∣ n := by
  have h := (v2_spec n hn).2
  rw [hv, pow_one] at h
  exact h

theorem unit_part_spec (c : ℚ) (hc : c ≠ 0) :
    (c * two_zpow (-(qval c))) ≠ 0 ∧
    qval (c * two_zpow (-(qval c))) = 0 ∧
    ¬ (2:ℤ) ∣ (c * two_zpow (-(qval c))).num ∧
    ¬ (2:ℕ) ∣ (c * two_zpow (-(qval c))).den := by
  have hu0 : c * two_zpow (-(qval c)) ≠ 0 :=
    mul_ne_zero hc (two_zpow_ne_zero _)
  have hval : qvalT (c * two_zpow (-(qval c))) = ((0 : ℤ) : WithTop ℤ) := by
    rw [qvalT_mul, qvalT_ne_zero _ hc, qvalT_two_zpow]
    rw [← WithTop.coe_add]
    norm_num
  have hval0 : qval (c * two_zpow (-(qval c))) = 0 := by
    rw [qvalT_ne_zero _ hu0] at hval
    exact_mod_cast hval
  set u := c * two_zpow (-(qval c)) with hu
  have hnum0 : u.num ≠ 0 := Rat.num_ne_zero.2 hu0
  have hden0 : u.den ≠ 0 := u.den_nz
  have hdiff : v2 u.num.natAbs = v2 u.den := by
    have h := hval0
    rw [qval] at h
    omega
  have hmin : v2 u.num.natAbs = 0 := by
    by_contra hcon
    have h1 : 2 ∣ u.num.natAbs := by
      have h2 := (v2_spec u.num.natAbs (Int.natAbs_ne_zero.2 hnum0)).1
      refine dvd_trans ?_ h2
      exact dvd_pow_self 2 hcon
    have h3 : 2 ∣ u.den := by
      have h4 := (v2_spec u.den hden0).1
      refine dvd_trans ?_ h4
      rw [← hdiff]
      exact dvd_pow_self 2 hcon
    have h5 := u.reduced
    have h6 : 2 ∣ Nat.gcd u.num.natAbs u.den := Nat.dvd_gcd h1 h3
    rw [Nat.Coprime] at h5
    rw [h5] at h6
    omega
  refine ⟨hu0, hval0, ?_, ?_⟩
  · intro hcon
    have h1 : 2 ∣ u.num.natAbs := by
      have := Int.natAbs_dvd_natAbs.2 hcon
      simpa using this
    exact v2_zero_not_dvd _ (Int.natAbs_ne_zero.2 hnum0) hmin h1
  · intro hcon
    have hden2 : v2 u.den = 0 := by omega
    exact v2_zero_not_dvd _ hden0 hden2 hcon

theorem v2_eq_zero_of_not_dvd (n : ℕ) (h : ¬ 2 ∣ n) : v2 n = 0 := by
  have hn : n ≠ 0 := by
    intro hcon
    rw [hcon] at h
    exact h (dvd_zero 2)
  by_contra hcon
  have h2 := (v2_spec n hn).1
  exact h (dvd_trans (dvd_pow_self 2 hcon) h2)

theorem qvalT_natCast_odd (d : ℕ) (h : ¬ 2 ∣ d) :
    qvalT ((d : ℚ)) = ((0:ℤ) : WithTop ℤ) := by
  have hd : d ≠ 0 := by
    intro hcon
    rw [hcon] at h
    exact h (dvd_zero 2)
  have hc : ((d:ℚ)) ≠ 0 := Nat.cast_ne_zero.2 hd
  rw [qvalT_ne_zero _ hc]
  congr 1
  rw [qval, Rat.num_natCast, Rat.den_natCast, v2_one]
  simp [Int.natAbs_ofNat, v2_eq_zero_of_not_dvd d h]

theorem qmodPow_dvd_sub (u : ℚ) (m : ℕ) (hm : 1 ≤ m) (hden : ¬ 2 ∣ u.den) :
    (2:ℤ)^m ∣ (u.num - qmodPow u m * u.den) := by
  have hdenInt : ¬ (2:ℤ) ∣ (u.den : ℤ) := by
    intro hcon
    exact hden (by exact_mod_cast hcon)
  have hinv := oddInv_spec (u.den : ℤ) m hm hdenInt
  have h1 : (2:ℤ)^m ∣ u.num * (1 - (u.den : ℤ) * oddInv (u.den : ℤ) m) := by
    refine dvd_mul_of_dvd_right ?_ _
    have heq : (1 : ℤ) - (u.den : ℤ) * oddInv (u.den:ℤ) m =
        -((u.den:ℤ) * oddInv (u.den:ℤ) m - 1) := by ring
    rw [heq]
    exact dvd_neg.mpr hinv
  have h2 : (2:ℤ)^m ∣
      ((u.den : ℤ) * (u.num * oddInv (u.den:ℤ) m - qmodPow u m)) := by
    refine dvd_mul_of_dvd_right ?_ _
    rw [qmodPow]
    have heq : u.num * oddInv (u.den:ℤ) m -
        (u.num * oddInv (u.den:ℤ) m) % (2^m) =
        2^m * ((u.num * oddInv (u.den:ℤ) m) / 2^m) := by
      rw [Int.emod_def]
      ring
    rw [heq]
    exact dvd_mul_right _ _
  have hD : u.num - qmodPow u m * u.den =
      u.num * (1 - (u.den:ℤ) * oddInv (u.den:ℤ) m) +
      (u.den:ℤ) * (u.num * oddInv (u.den:ℤ) m - qmodPow u m) := by
    rw [qmodPow]
    ring
  rw [hD]
  exact dvd_add h1 h2

theorem sub_qmod_val (u : ℚ) (m : ℕ) (hm : 1 ≤ m)
    (hnum : ¬(2:ℤ) ∣ u.num) (hden : ¬ 2 ∣ u.den) :
    (((m : ℕ) : ℤ) : WithTop ℤ) ≤ qvalT (u - ((qmodPow u m : ℤ) : ℚ)) := by
  have hden0 : ((u.den : ℕ) : ℚ) ≠ 0 := Nat.cast_ne_zero.2 u.den_nz
  have hkey : (u - ((qmodPow u m : ℤ) : ℚ)) * ((u.den : ℕ) : ℚ) =
      (((u.num - qmodPow u m * u.den) : ℤ) : ℚ) := by
    have hnd : u * ((u.den : ℕ) : ℚ) = ((u.num : ℤ) : ℚ) :=
      ((div_eq_iff hden0).1 (Rat.num_div_den u)).symm
    rw [sub_mul, hnd]
    push_cast
    ring
  have hv := qvalT_mul (u - ((qmodPow u m : ℤ) : ℚ)) ((u.den : ℕ) : ℚ)
  rw [hkey, qvalT_natCast_odd u.den hden] at hv
  rw [show (((0:ℤ)) : WithTop ℤ) = (0 : WithTop ℤ) from rfl, add_zero] at hv
  rw [← hv]
  exact intCast_val_ge m _ (qmodPow_dvd_sub u m hm hden)

theorem truncQZ_err (n : ℤ) (c : ℚ) :
    ((n : ℤ) : WithTop ℤ) ≤ qvalT (c - truncQZ n c) := by
  by_cases hc : c = 0
  · simp [truncQZ, hc, qvalT_zero]
  rw [truncQZ, if_neg hc]
  by_cases hn : n ≤ qval c
  · rw [if_pos hn, sub_zero, qvalT_ne_zero _ hc]
    exact_mod_cast hn
  rw [if_neg hn]
  obtain ⟨hu0, huval, hnumodd, hdenodd⟩ := unit_part_spec c hc
  have hm1 : 1 ≤ (n - qval c).toNat := by omega
  have hcu : c - two_zpow (qval c) *
      ((qmodPow (c * two_zpow (-(qval c))) (n - qval c).toNat : ℤ) : ℚ) =
      two_zpow (qval c) * ((c * two_zpow (-(qval c))) -
        ((qmodPow (c * two_zpow (-(qval c))) (n - qval c).toNat : ℤ) : ℚ)) := by
    rw [mul_sub]
    congr 1
    rw [mul_comm c, ← mul_assoc, ← two_zpow_add]
    have hz : qval c + -(qval c) = 0 := by ring
    rw [hz, two_zpow_zero, one_mul]
  rw [hcu, qvalT_mul, qvalT_two_zpow]
  have hsub := sub_qmod_val (c * two_zpow (-(qval c))) (n - qval c).toNat
    hm1 hnumodd hdenodd
  have hn2 : ((n : ℤ) : WithTop ℤ) =
      ((qval c : ℤ) : WithTop ℤ) + ((((n - qval c).toNat : ℕ) : ℤ) : WithTop ℤ) := by
    rw [← WithTop.coe_add]
    congr 1
    omega
  rw [hn2]
  exact add_le_add_left hsub _

theorem truncQ_coe (n : ℤ) (c : ℚ) :
    truncQ ((n : ℤ) : WithTop ℤ) c = truncQZ n c := by
  rw [truncQ, if_neg (WithTop.coe_ne_top), WithTop.untop'_coe]

theorem truncQ_err (N : WithTop ℤ) (c : ℚ) : N ≤ qvalT (c - truncQ N c) := by
  by_cases hN : N = ⊤
  · rw [hN, truncQ, if_pos rfl, sub_self, qvalT_zero]
  · obtain ⟨n, rfl⟩ := WithTop.ne_top_iff_exists.1 hN
    rw [truncQ_coe]
    exact truncQZ_err n c

theorem qmodPow_odd (u : ℚ) (m : ℕ) (hm : 1 ≤ m)
    (hnum : ¬(2:ℤ) ∣ u.num) (hden : ¬ 2 ∣ u.den) :
    ¬ (2:ℤ) ∣ qmodPow u m := by
  intro hcon
  have hdenInt : ¬ (2:ℤ) ∣ (u.den:ℤ) := fun h => hden (by exact_mod_cast h)
  have hinvodd := oddInv_odd (u.den:ℤ) m hm hdenInt
  have h2 : (2:ℤ)^m ∣ (u.num * oddInv (u.den:ℤ) m - qmodPow u m) := by
    rw [qmodPow]
    have heq : u.num * oddInv (u.den:ℤ) m -
        (u.num * oddInv (u.den:ℤ) m) % 2^m =
        2^m * ((u.num * oddInv (u.den:ℤ) m) / 2^m) := by
      rw [Int.emod_def]
      ring
    rw [heq]
    exact dvd_mul_right _ _
  have h1 : (2:ℤ) ∣ (u.num * oddInv (u.den:ℤ) m - qmodPow u m) :=
    dvd_trans (dvd_pow_self 2 (by omega)) h2
  have h3 : (2:ℤ) ∣ u.num * oddInv (u.den:ℤ) m := by omega
  rcases (Int.prime_two.dvd_mul).1 h3 with h | h
  · exact hnum h
  · exact hinvodd h

theorem truncQZ_val (n : ℤ) (c : ℚ) (h : truncQZ n c ≠ 0) :
    qvalT (truncQZ n c) = qvalT c := by
  by_cases hc : c = 0
  · rw [truncQZ, if_pos hc] at h
    exact absurd rfl h
  by_cases hn : n ≤ qval c
  · rw [truncQZ, if_neg hc, if_pos hn] at h
    exact absurd rfl h
  rw [truncQZ, if_neg hc, if_neg hn]
  obtain ⟨hu0, huval, hnumodd, hdenodd⟩ := unit_part_spec c hc
  have hm1 : 1 ≤ (n - qval c).toNat := by omega
  have hro := qmodPow_odd _ _ hm1 hnumodd hdenodd
  have hr0 : qmodPow (c * two_zpow (-(qval c))) (n - qval c).toNat ≠ 0 := by
    intro hcon
    rw [hcon] at hro
    exact hro (dvd_zero 2)
  rw [qvalT_mul, qvalT_two_zpow]
  have hrval : qvalT
      ((qmodPow (c * two_zpow (-(qval c))) (n - qval c).toNat : ℤ) : ℚ) =
      ((0:ℤ) : WithTop ℤ) := by
    have hrc : ((qmodPow (c * two_zpow (-(qval c))) (n - qval c).toNat : ℤ) : ℚ) ≠ 0 :=
      Int.cast_ne_zero.2 hr0
    rw [qvalT_ne_zero _ hrc]
    congr 1
    rw [qval, Rat.intCast_num, Rat.intCast_den, v2_one]
    have hnodd : ¬ 2 ∣ (qmodPow (c * two_zpow (-(qval c))) (n - qval c).toNat).natAbs := by
      intro hd
      apply hro
      have h2 : ((2:ℕ) : ℤ) ∣
          (((qmodPow (c * two_zpow (-(qval c))) (n - qval c).toNat).natAbs : ℕ) : ℤ) :=
        Int.natCast_dvd_natCast.2 hd
      rw [Int.dvd_natAbs] at h2
      exact_mod_cast h2
    rw [v2_eq_zero_of_not_dvd _ hnodd]
    simp
  rw [hrval, qvalT_ne_zero _ hc, ← WithTop.coe_add]
  congr 1
  omega

theorem truncQZ_idem (n : ℤ) (c : ℚ) :
    truncQZ n (truncQZ n c) = truncQZ n c := by
  by_cases hc : c = 0
  · rw [hc]
    rw [show truncQZ n 0 = 0 from by rw [truncQZ, if_pos rfl]]
    rw [truncQZ, if_pos rfl]
  by_cases hn : n ≤ qval c
  · rw [show truncQZ n c = 0 from by rw [truncQZ, if_neg hc, if_pos hn]]
    rw [truncQZ, if_pos rfl]
  by_cases ht : truncQZ n c = 0
  · rw [ht, truncQZ, if_pos rfl]
  have hvalT : qvalT (truncQZ n c) = qvalT c := truncQZ_val n c ht
  have hval : qval (truncQZ n c) = qval c := by
    rw [qvalT_ne_zero _ ht, qvalT_ne_zero _ hc] at hvalT
    exact_mod_cast hvalT
  obtain ⟨hu0, huval, hnumodd, hdenodd⟩ := unit_part_spec c hc
  have hm1 : 1 ≤ (n - qval c).toNat := by omega
  have hro := qmodPow_odd _ _ hm1 hnumodd hdenodd
  have hexp : truncQZ n c = two_zpow (qval c) *
      ((qmodPow (c * two_zpow (-(qval c))) (n - qval c).toNat : ℤ) : ℚ) := by
    rw [truncQZ, if_neg hc, if_neg hn]
  rw [truncQZ, if_neg ht, if_neg (by rw [hval]; exact hn), hval]
  have hushift : truncQZ n c * two_zpow (-(qval c)) =
      ((qmodPow (c * two_zpow (-(qval c))) (n - qval c).toNat : ℤ) : ℚ) := by
    rw [hexp, mul_comm (two_zpow (qval c)), mul_assoc, ← two_zpow_add]
    have hz : qval c + -(qval c) = 0 := by ring
    rw [hz, two_zpow_zero, mul_one]
  rw [hushift]
  have hqm : qmodPow
      ((qmodPow (c * two_zpow (-(qval c))) (n - qval c).toNat : ℤ) : ℚ)
      (n - qval c).toNat =
      qmodPow (c * two_zpow (-(qval c))) (n - qval c).toNat := by
    rw [qmodPow, Rat.num_intCast, Rat.den_intCast]
    have hOne : oddInv ((1:ℕ) : ℤ) (n - qval c).toNat = 1 := by
      have h2 : (1 : ℤ) < 2 ^ (n - qval c).toNat := by
        have := Nat.one_lt_two_pow_iff.2 (by omega : (n - qval c).toNat ≠ 0)
        exact_mod_cast this
      rw [oddInv]
      push_cast
      exact invIter_one _ h2 _
    rw [hOne, mul_one]
    conv_rhs =>
      rw [qmodPow]
    exact Int.emod_emod_of_dvd _ dvd_rfl
  rw [hqm]
  exact hexp.symm

theorem truncQ_val (N : WithTop ℤ) (c : ℚ) (h : truncQ N c ≠ 0) :
    qvalT (truncQ N c) = qvalT c := by
  by_cases hN : N = ⊤
  · rw [hN, truncQ, if_pos rfl]
  · obtain ⟨n, rfl⟩ := WithTop.ne_top_iff_exists.1 hN
    rw [truncQ_coe] at h ⊢
    exact truncQZ_val n c h

theorem truncQ_idem (N : WithTop ℤ) (c : ℚ) :
    truncQ N (truncQ N c) = truncQ N c := by
  by_cases hN : N = ⊤
  · rw [hN, truncQ, if_pos rfl]
  · obtain ⟨n, rfl⟩ := WithTop.ne_top_iff_exists.1 hN
    rw [truncQ_coe, truncQ_coe]
    exact truncQZ_idem n c

theorem qvalT_add_of_lt (a b : ℚ) (h : qvalT a < qvalT b) :
    qvalT (a + b) = qvalT a := by
  have ha : a ≠ 0 := by
    intro hcon
    rw [hcon, qvalT_zero] at h
    exact absurd h (not_top_lt)
  by_cases hb : b = 0
  · rw [hb, add_zero]
  have hab : a + b ≠ 0 := by
    intro hcon
    have hba : b = -a := by linarith
    rw [hba, qvalT_neg] at h
    exact absurd h (lt_irrefl _)
  have hne : padicValRat 2 a ≠ padicValRat 2 b := by
    intro hcon
    rw [qvalT_ne_zero _ ha, qvalT_ne_zero _ hb,
      qval_eq_padicValRat _ ha, qval_eq_padicValRat _ hb, hcon] at h
    exact absurd h (lt_irrefl _)
  have hmin := @padicValRat.add_eq_min 2 _ a b hab ha hb hne
  rw [qvalT_ne_zero _ ha, qvalT_ne_zero _ hb,
    qval_eq_padicValRat _ ha, qval_eq_padicValRat _ hb] at h
  rw [qvalT_ne_zero _ hab, qvalT_ne_zero _ ha,
    qval_eq_padicValRat _ hab, qval_eq_padicValRat _ ha, hmin]
  congr 1
  have hlt : padicValRat 2 a < padicValRat 2 b := by exact_mod_cast h
  exact min_eq_left (le_of_lt hlt)

/-! ## Canonical-form predicates and coefficient lemmas -/

/-- Keys strictly increasing in the lexicographic order. -/
def SortedKeys (p : Poly) : Prop :=
  p.Pairwise (fun a b => lexCmp a.1 b.1 = .lt)

/-- No stored zero coefficient. -/
def PolyNZ (p : Poly) : Prop := ∀ ec ∈ p, ec.2 ≠ 0

/-- All exponents have the algebra's variable count. -/
def PolyLen (n : ℕ) (p : Poly) : Prop := ∀ ec ∈ p, ec.1.length = n

instance decSortedKeys (p : Poly) : Decidable (SortedKeys p) := by
  rw [SortedKeys]
  infer_instance

instance decPolyNZ (p : Poly) : Decidable (PolyNZ p) := by
  rw [PolyNZ]
  infer_instance

instance decPolyLen (n : ℕ) (p : Poly) : Decidable (PolyLen n p) := by
  rw [PolyLen]
  infer_instance

/-- Sum of the coefficients of an arbitrary pair list at one key. -/
def keySum (l : List (Expv × ℚ)) (e : Expv) : ℚ :=
  (l.map (fun ec => if ec.1 = e then ec.2 else 0)).sum

/-- The convolution sum: coefficient of `p * q` at `e`. -/
def convC (p q : Poly) (e : Expv) : ℚ :=
  (p.map (fun ec => keySum (mulTermP ec.1 ec.2 q) e)).sum

theorem pCoeff_not_key (p : Poly) (e : Expv)
    (h : ∀ ec ∈ p, e ≠ ec.1) : pCoeff p e = 0 := by
  induction p with
  | nil => rfl
  | cons ec rest ih =>
    rw [pCoeff, if_neg (h ec (List.mem_cons_self ec rest))]
    exact ih (fun ec' hec' => h ec' (List.mem_cons_of_mem ec hec'))

theorem keySum_nil (e : Expv) : keySum [] e = 0 := rfl

theorem keySum_cons (ec : Expv × ℚ) (l : List (Expv × ℚ)) (e : Expv) :
    keySum (ec :: l) e = (if ec.1 = e then ec.2 else 0) + keySum l e := by
  rw [keySum, List.map_cons, List.sum_cons, keySum]

theorem mem_insT (e : Expv) (c : ℚ) (p : Poly) :
    ∀ ec ∈ insT e c p, ec ∈ p ∨ ec.1 = e := by
  induction p with
  | nil =>
    intro ec hec
    rw [insT] at hec
    by_cases hc : c = 0
    · rw [if_pos hc] at hec
      exact absurd hec (List.not_mem_nil ec)
    · rw [if_neg hc] at hec
      rcases List.mem_singleton.1 hec with rfl
      exact Or.inr rfl
  | cons ec0 rest ih =>
    intro ec hec
    rw [insT] at hec
    cases hcmp : lexCmp e ec0.1 with
    | lt =>
      rw [hcmp] at hec
      by_cases hc : c = 0
      · rw [if_pos hc] at hec
        exact Or.inl hec
      · rw [if_neg hc] at hec
        rcases List.mem_cons.1 hec with rfl | h2
        · exact Or.inr rfl
        · exact Or.inl h2
    | eq =>
      rw [hcmp] at hec
      have he : e = ec0.1 := (lexCmp_eq_iff e ec0.1).1 hcmp
      by_cases hc : c + ec0.2 = 0
      · rw [if_pos hc] at hec
        exact Or.inl (List.mem_cons_of_mem ec0 hec)
      · rw [if_neg hc] at hec
        rcases List.mem_cons.1 hec with rfl | h2
        · exact Or.inr rfl
        · exact Or.inl (List.mem_cons_of_mem ec0 h2)
    | gt =>
      rw [hcmp] at hec
      rcases List.mem_cons.1 hec with rfl | h2
      · exact Or.inl (List.mem_cons_self ec rest)
      · rcases ih ec h2 with h3 | h3
        · exact Or.inl (List.mem_cons_of_mem ec0 h3)
        · exact Or.inr h3

theorem insT_sorted (e : Expv) (c : ℚ) (p : Poly) (hp : SortedKeys p) :
    SortedKeys (insT e c p) := by
  induction p with
  | nil =>
    rw [insT]
    by_cases hc : c = 0
    · rw [if_pos hc]
      exact List.Pairwise.nil
    · rw [if_neg hc]
      exact List.pairwise_singleton _ _
  | cons ec0 rest ih =>
    rw [SortedKeys, List.pairwise_cons] at hp
    obtain ⟨hhead, hrest⟩ := hp
    rw [insT]
    cases hcmp : lexCmp e ec0.1 with
    | lt =>
      by_cases hc : c = 0
      · rw [if_pos hc]
        exact List.Pairwise.cons hhead hrest
      · rw [if_neg hc]
        refine List.Pairwise.cons ?_ (List.Pairwise.cons hhead hrest)
        intro ec' hec'
        rcases List.mem_cons.1 hec' with rfl | h2
        · exact hcmp
        · exact lexCmp_lt_trans _ _ _ hcmp (hhead ec' h2)
    | eq =>
      have he : e = ec0.1 := (lexCmp_eq_iff e ec0.1).1 hcmp
      by_cases hc : c + ec0.2 = 0
      · rw [if_pos hc]
        exact hrest
      · rw [if_neg hc]
        refine List.Pairwise.cons ?_ hrest
        intro ec' hec'
        rw [he]
        exact hhead ec' hec'
    | gt =>
      refine List.Pairwise.cons ?_ (ih hrest)
      intro ec' hec'
      rcases mem_insT e c rest ec' hec' with h2 | h2
      · exact hhead ec' h2
      · rw [h2]
        have hswap := lexCmp_swap e ec0.1
        rw [hcmp] at hswap
        exact hswap

theorem insT_nz (e : Expv) (c : ℚ) (p : Poly) (hp : PolyNZ p) :
    PolyNZ (insT e c p) := by
  induction p with
  | nil =>
    intro ec hec
    rw [insT] at hec
    by_cases hc : c = 0
    · rw [if_pos hc] at hec
      exact absurd hec (List.not_mem_nil ec)
    · rw [if_neg hc] at hec
      rcases List.mem_singleton.1 hec with rfl
      exact hc
  | cons ec0 rest ih =>
    intro ec hec
    rw [insT] at hec
    cases hcmp : lexCmp e ec0.1 with
    | lt =>
      rw [hcmp] at hec
      by_cases hc : c = 0
      · rw [if_pos hc] at hec
        exact hp ec hec
      · rw [if_neg hc] at hec
        rcases List.mem_cons.1 hec with rfl | h2
        · exact hc
        · exact hp ec h2
    | eq =>
      rw [hcmp] at hec
      by_cases hc : c + ec0.2 = 0
      · rw [if_pos hc] at hec
        exact hp ec (List.mem_cons_of_mem ec0 hec)
      · rw [if_neg hc] at hec
        rcases List.mem_cons.1 hec with rfl | h2
        · exact hc
        · exact hp ec (List.mem_cons_of_mem ec0 h2)
    | gt =>
      rw [hcmp] at hec
      rcases List.mem_cons.1 hec with rfl | h2
      · exact hp ec (List.mem_cons_self ec rest)
      · exact ih (fun ec' hec' => hp ec' (List.mem_cons_of_mem ec0 hec')) ec h2

theorem insT_len (n : ℕ) (e : Expv) (c : ℚ) (p : Poly) (hp : PolyLen n p)
    (he : e.length = n) : PolyLen n (insT e c p) := by
  intro ec hec
  rcases mem_insT e c p ec hec with h2 | h2
  · exact hp ec h2
  · rw [h2, he]

theorem insT_pCoeff (e : Expv) (c : ℚ) :
    ∀ (p : Poly), SortedKeys p → ∀ (e' : Expv),
      pCoeff (insT e c p) e' = pCoeff p e' + (if e' = e then c else 0) := by
  intro p
  induction p with
  | nil =>
    intro _ e'
    by_cases hc : c = 0 <;> by_cases he' : e' = e <;>
      simp [insT, hc, pCoeff, he']
  | cons ec0 rest ih =>
    intro hp e'
    obtain ⟨e0, c0⟩ := ec0
    rw [SortedKeys, List.pairwise_cons] at hp
    obtain ⟨hhead, hrest⟩ := hp
    cases hcmp : lexCmp e e0 with
    | lt =>
      have hne : e ≠ e0 := by
        intro hcon
        rw [(lexCmp_eq_iff e e0).2 hcon] at hcmp
        exact Ordering.noConfusion hcmp
      have hnotkey : pCoeff rest e = 0 := by
        apply pCoeff_not_key
        intro ec' hec' hcon
        have h3 := hhead ec' hec'
        have h4 := lexCmp_lt_trans e e0 ec'.1 hcmp h3
        rw [hcon] at h4
        rw [lexCmp_self] at h4
        exact Ordering.noConfusion h4
      by_cases hc : c = 0
      · simp [insT, hcmp, hc]
      · simp only [insT, hcmp, if_neg hc]
        by_cases he' : e' = e
        · subst he'
          simp [pCoeff, hne, hnotkey]
        · simp [pCoeff, he']
    | eq =>
      have he : e = e0 := (lexCmp_eq_iff e e0).1 hcmp
      subst he
      by_cases hc : c + c0 = 0
      · simp only [insT, hcmp, if_pos hc]
        by_cases he' : e' = e
        · subst he'
          have hnotkey : pCoeff rest e' = 0 := by
            apply pCoeff_not_key
            intro ec' hec' hcon
            have h3 := hhead ec' hec'
            rw [hcon] at h3
            rw [lexCmp_self] at h3
            exact Ordering.noConfusion h3
          simp [pCoeff, hnotkey]
          linarith
        · simp [pCoeff, he']
      · simp only [insT, hcmp, if_neg hc]
        by_cases he' : e' = e
        · subst he'
          simp [pCoeff]
          ring
        · simp [pCoeff, he']
    | gt =>
      have hne : e ≠ e0 := by
        intro hcon
        rw [(lexCmp_eq_iff e e0).2 hcon] at hcmp
        exact Ordering.noConfusion hcmp
      simp only [insT, hcmp]
      by_cases he0 : e' = e0
      · subst he0
        have hne' : e' ≠ e := fun h => hne h.symm
        simp [pCoeff, hne']
      · simp only [pCoeff, if_neg he0]
        exact ih hrest e'

theorem keySum_not_key (l : List (Expv × ℚ)) (e : Expv)
    (h : ∀ ec ∈ l, ec.1 ≠ e) : keySum l e = 0 := by
  induction l with
  | nil => rfl
  | cons ec rest ih =>
    rw [keySum_cons, if_neg (h ec (List.mem_cons_self ec rest))]
    rw [ih (fun ec' hec' => h ec' (List.mem_cons_of_mem ec hec'))]
    ring

theorem keySum_eq_pCoeff (p : Poly) (hp : SortedKeys p) (e : Expv) :
    keySum p e = pCoeff p e := by
  induction p with
  | nil => rfl
  | cons ec rest ih =>
    rw [SortedKeys, List.pairwise_cons] at hp
    obtain ⟨hhead, hrest⟩ := hp
    rw [keySum_cons, pCoeff]
    by_cases he : ec.1 = e
    · rw [if_pos he, if_pos he.symm]
      have hnk : keySum rest e = 0 := by
        apply keySum_not_key
        intro ec' hec' hcon
        have h3 := hhead ec' hec'
        rw [he] at h3
        rw [hcon] at h3
        rw [lexCmp_self] at h3
        exact Ordering.noConfusion h3
      rw [hnk]
      ring
    · rw [if_neg he, if_neg (fun hcon => he hcon.symm), ih hrest]
      ring

theorem addP_pCoeff (l : List (Expv × ℚ)) :
    ∀ (p : Poly), SortedKeys p → ∀ (e : Expv),
      pCoeff (addP p l) e = pCoeff p e + keySum l e := by
  induction l with
  | nil =>
    intro p hp e
    rw [addP, List.foldl_nil, keySum_nil]
    ring
  | cons x l' ih =>
    intro p hp e
    rw [addP, List.foldl_cons]
    have h2 := ih (insT x.1 x.2 p) (insT_sorted x.1 x.2 p hp) e
    rw [addP] at h2
    rw [h2, insT_pCoeff x.1 x.2 p hp e, keySum_cons]
    by_cases he : x.1 = e
    · rw [if_pos he, if_pos he.symm]
      ring
    · rw [if_neg he, if_neg (fun hcon => he hcon.symm)]
      ring

theorem addP_sorted (l : List (Expv × ℚ)) :
    ∀ (p : Poly), SortedKeys p → SortedKeys (addP p l) := by
  induction l with
  | nil => intro p hp; exact hp
  | cons x l' ih =>
    intro p hp
    rw [addP, List.foldl_cons]
    exact ih (insT x.1 x.2 p) (insT_sorted x.1 x.2 p hp)

theorem addP_nz (l : List (Expv × ℚ)) :
    ∀ (p : Poly), PolyNZ p → PolyNZ (addP p l) := by
  induction l with
  | nil => intro p hp; exact hp
  | cons x l' ih =>
    intro p hp
    rw [addP, List.foldl_cons]
    exact ih (insT x.1 x.2 p) (insT_nz x.1 x.2 p hp)

theorem addP_len (n : ℕ) (l : List (Expv × ℚ)) :
    ∀ (p : Poly), PolyLen n p → (∀ ec ∈ l, ec.1.length = n) →
      PolyLen n (addP p l) := by
  induction l with
  | nil => intro p hp _; exact hp
  | cons x l' ih =>
    intro p hp hl
    rw [addP, List.foldl_cons]
    exact ih (insT x.1 x.2 p)
      (insT_len n x.1 x.2 p hp (hl x (List.mem_cons_self x l')))
      (fun ec hec => hl ec (List.mem_cons_of_mem x hec))

theorem negP_pCoeff (p : Poly) (e : Expv) :
    pCoeff (negP p) e = -(pCoeff p e) := by
  induction p with
  | nil => simp [negP, pCoeff]
  | cons ec rest ih =>
    rw [negP, List.map_cons, pCoeff, pCoeff]
    by_cases he : e = ec.1
    · rw [if_pos he, if_pos he]
    · rw [if_neg he, if_neg he, ← negP, ih]

theorem negP_sorted (p : Poly) (hp : SortedKeys p) : SortedKeys (negP p) := by
  rw [SortedKeys, negP, List.pairwise_map]
  exact hp

theorem negP_nz (p : Poly) (hp : PolyNZ p) : PolyNZ (negP p) := by
  intro ec hec
  rw [negP, List.mem_map] at hec
  obtain ⟨ec0, hec0, rfl⟩ := hec
  exact neg_ne_zero.2 (hp ec0 hec0)

theorem negP_len (n : ℕ) (p : Poly) (hp : PolyLen n p) :
    PolyLen n (negP p) := by
  intro ec hec
  rw [negP, List.mem_map] at hec
  obtain ⟨ec0, hec0, rfl⟩ := hec
  exact hp ec0 hec0

theorem keySum_negP (p : Poly) (e : Expv) :
    keySum (negP p) e = -(keySum p e) := by
  induction p with
  | nil => simp [negP, keySum]
  | cons ec rest ih =>
    rw [negP, List.map_cons, keySum_cons, keySum_cons, ← negP, ih]
    by_cases he : ec.1 = e
    · rw [if_pos he, if_pos he]
      ring
    · rw [if_neg he, if_neg he]
      ring

theorem subP_pCoeff (p q : Poly) (hp : SortedKeys p) (hq : SortedKeys q)
    (e : Expv) : pCoeff (subP p q) e = pCoeff p e - pCoeff q e := by
  rw [subP, addP_pCoeff (negP q) p hp e, keySum_negP,
    keySum_eq_pCoeff q hq e]
  ring

theorem subP_sorted (p q : Poly) (hp : SortedKeys p) :
    SortedKeys (subP p q) := addP_sorted (negP q) p hp

theorem subP_nz (p q : Poly) (hp : PolyNZ p) : PolyNZ (subP p q) :=
  addP_nz (negP q) p hp

theorem subP_len (n : ℕ) (p q : Poly) (hp : PolyLen n p)
    (hq : PolyLen n q) : PolyLen n (subP p q) :=
  addP_len n (negP q) p hp (negP_len n q hq)

theorem truncQ_zero (N : WithTop ℤ) : truncQ N 0 = 0 := by
  rw [truncQ]
  by_cases hN : N = ⊤
  · rw [if_pos hN]
  · rw [if_neg hN, truncQZ, if_pos rfl]

theorem mem_reduceP (N : WithTop ℤ) (p : Poly) :
    ∀ ec ∈ reduceP N p, ∃ c0, (ec.1, c0) ∈ p ∧ ec.2 = truncQ N c0 ∧
      ec.2 ≠ 0 := by
  induction p with
  | nil => intro ec hec; exact absurd hec (List.not_mem_nil ec)
  | cons ec0 rest ih =>
    intro ec hec
    rw [reduceP, List.foldr_cons] at hec
    by_cases hc : truncQ N ec0.2 = 0
    · rw [if_pos hc] at hec
      obtain ⟨c0, h1, h2, h3⟩ := ih ec hec
      exact ⟨c0, List.mem_cons_of_mem ec0 h1, h2, h3⟩
    · rw [if_neg hc] at hec
      rcases List.mem_cons.1 hec with rfl | h2
      · exact ⟨ec0.2, List.mem_cons_self _ _, rfl, hc⟩
      · obtain ⟨c0, h1, h2, h3⟩ := ih ec h2
        exact ⟨c0, List.mem_cons_of_mem ec0 h1, h2, h3⟩

theorem reduceP_sorted (N : WithTop ℤ) (p : Poly) (hp : SortedKeys p) :
    SortedKeys (reduceP N p) := by
  induction p with
  | nil => exact List.Pairwise.nil
  | cons ec0 rest ih =>
    rw [SortedKeys, List.pairwise_cons] at hp
    obtain ⟨hhead, hrest⟩ := hp
    rw [reduceP, List.foldr_cons]
    by_cases hc : truncQ N ec0.2 = 0
    · rw [if_pos hc]
      exact ih hrest
    · rw [if_neg hc]
      refine List.Pairwise.cons ?_ (ih hrest)
      intro ec' hec'
      obtain ⟨c0, h1, _, _⟩ := mem_reduceP N rest ec' hec'
      have h3 := hhead (ec'.1, c0) h1
      exact h3

theorem reduceP_nz (N : WithTop ℤ) (p : Poly) : PolyNZ (reduceP N p) := by
  intro ec hec
  obtain ⟨c0, _, _, h3⟩ := mem_reduceP N p ec hec
  exact h3

theorem reduceP_len (n : ℕ) (N : WithTop ℤ) (p : Poly) (hp : PolyLen n p) :
    PolyLen n (reduceP N p) := by
  intro ec hec
  obtain ⟨c0, h1, _, _⟩ := mem_reduceP N p ec hec
  exact hp (ec.1, c0) h1

theorem reduceP_pCoeff (N : WithTop ℤ) (p : Poly) (hp : SortedKeys p)
    (e : Expv) : pCoeff (reduceP N p) e = truncQ N (pCoeff p e) := by
  induction p with
  | nil => rw [reduceP, pCoeff, truncQ_zero]; rfl
  | cons ec0 rest ih =>
    rw [SortedKeys, List.pairwise_cons] at hp
    obtain ⟨hhead, hrest⟩ := hp
    rw [reduceP, List.foldr_cons, ← reduceP]
    by_cases he : e = ec0.1
    · have hnk2 : pCoeff (reduceP N rest) e = 0 := by
        apply pCoeff_not_key
        intro ec' hec' hcon
        obtain ⟨c0, h1, _, _⟩ := mem_reduceP N rest ec' hec'
        have h3 := hhead (ec'.1, c0) h1
        rw [← he] at h3
        rw [hcon] at h3
        rw [lexCmp_self] at h3
        exact Ordering.noConfusion h3
      by_cases hc : truncQ N ec0.2 = 0
      · rw [if_pos hc, hnk2, pCoeff, if_pos he, hc]
      · rw [if_neg hc, pCoeff, if_pos he, pCoeff, if_pos he]
    · by_cases hc : truncQ N ec0.2 = 0
      · rw [if_pos hc, ih hrest, pCoeff, if_neg he]
      · rw [if_neg hc, pCoeff, if_neg he, pCoeff, if_neg he, ih hrest]

theorem eadd_length (n : ℕ) (a b : Expv) (ha : a.length = n)
    (hb : b.length = n) : (eadd a b).length = n := by
  rw [eadd, List.length_zipWith, ha, hb, min_self]

theorem convC_nil (q : Poly) (e : Expv) : convC [] q e = 0 := rfl

theorem convC_cons (ec : Expv × ℚ) (p q : Poly) (e : Expv) :
    convC (ec :: p) q e =
      keySum (mulTermP ec.1 ec.2 q) e + convC p q e := by
  rw [convC, List.map_cons, List.sum_cons, convC]

theorem mulP_pCoeff (p q : Poly) (e : Expv) :
    pCoeff (mulP p q) e = convC p q e := by
  have key : ∀ (p' : Poly) (acc : Poly), SortedKeys acc →
      pCoeff (p'.foldl (fun acc ec => addP acc (mulTermP ec.1 ec.2 q)) acc) e =
        pCoeff acc e + convC p' q e := by
    intro p'
    induction p' with
    | nil =>
      intro acc hacc
      rw [List.foldl_nil, convC_nil]
      ring
    | cons ec0 rest ih =>
      intro acc hacc
      rw [List.foldl_cons, convC_cons]
      rw [ih (addP acc (mulTermP ec0.1 ec0.2 q))
        (addP_sorted (mulTermP ec0.1 ec0.2 q) acc hacc)]
      rw [addP_pCoeff (mulTermP ec0.1 ec0.2 q) acc hacc e]
      ring
  have h := key p [] List.Pairwise.nil
  rw [mulP, h, pCoeff]
  ring

theorem mulP_sorted (p q : Poly) : SortedKeys (mulP p q) := by
  have key : ∀ (p' : Poly) (acc : Poly), SortedKeys acc →
      SortedKeys (p'.foldl (fun acc ec => addP acc (mulTermP ec.1 ec.2 q)) acc) := by
    intro p'
    induction p' with
    | nil => intro acc hacc; exact hacc
    | cons ec0 rest ih =>
      intro acc hacc
      rw [List.foldl_cons]
      exact ih _ (addP_sorted _ acc hacc)
  exact key p [] List.Pairwise.nil

theorem mulP_nz (p q : Poly) : PolyNZ (mulP p q) := by
  have key : ∀ (p' : Poly) (acc : Poly), PolyNZ acc →
      PolyNZ (p'.foldl (fun acc ec => addP acc (mulTermP ec.1 ec.2 q)) acc) := by
    intro p'
    induction p' with
    | nil => intro acc hacc; exact hacc
    | cons ec0 rest ih =>
      intro acc hacc
      rw [List.foldl_cons]
      exact ih _ (addP_nz _ acc hacc)
  exact key p [] (fun ec hec => absurd hec (List.not_mem_nil ec))

theorem mulTermP_len (n : ℕ) (e0 : Expv) (c0 : ℚ) (q : Poly)
    (he0 : e0.length = n) (hq : PolyLen n q) :
    ∀ ec ∈ mulTermP e0 c0 q, ec.1.length = n := by
  intro ec hec
  rw [mulTermP, List.mem_map] at hec
  obtain ⟨ec0, hec0, rfl⟩ := hec
  exact eadd_length n e0 ec0.1 he0 (hq ec0 hec0)

theorem mulP_len (n : ℕ) (p q : Poly) (hp : PolyLen n p) (hq : PolyLen n q) :
    PolyLen n (mulP p q) := by
  have key : ∀ (p' : Poly), (∀ ec ∈ p', ec.1.length = n) →
      ∀ (acc : Poly), PolyLen n acc →
      PolyLen n (p'.foldl (fun acc ec => addP acc (mulTermP ec.1 ec.2 q)) acc) := by
    intro p'
    induction p' with
    | nil => intro _ acc hacc; exact hacc
    | cons ec0 rest ih =>
      intro hp' acc hacc
      rw [List.foldl_cons]
      refine ih (fun ec hec => hp' ec (List.mem_cons_of_mem ec0 hec)) _ ?_
      exact addP_len n _ acc hacc
        (mulTermP_len n ec0.1 ec0.2 q (hp' ec0 (List.mem_cons_self ec0 rest)) hq)
  exact key p hp [] (fun ec hec => absurd hec (List.not_mem_nil ec))

theorem keySum_map_smul (c0 : ℚ) (l : List (Expv × ℚ)) (e : Expv) :
    keySum (l.map (fun ec => (ec.1, c0 * ec.2))) e = c0 * keySum l e := by
  induction l with
  | nil => simp [keySum]
  | cons ec rest ih =>
    rw [List.map_cons, keySum_cons, keySum_cons, ih]
    by_cases he : ec.1 = e <;> simp [he] <;> ring

theorem mulTermP_smul_eq (e0 : Expv) (c0 : ℚ) (q : Poly) :
    mulTermP e0 c0 q = (mulTermP e0 1 q).map (fun ec => (ec.1, c0 * ec.2)) := by
  induction q with
  | nil => rfl
  | cons ec rest ih =>
    simp only [mulTermP, List.map_cons] at ih ⊢
    rw [ih]
    simp

theorem keySum_smul (e0 : Expv) (c0 : ℚ) (q : Poly) (e : Expv) :
    keySum (mulTermP e0 c0 q) e = c0 * keySum (mulTermP e0 1 q) e := by
  rw [mulTermP_smul_eq e0 c0 q, keySum_map_smul]

theorem keySum_val_ge (β : WithTop ℤ) (l : List (Expv × ℚ))
    (h : ∀ ec ∈ l, β ≤ qvalT ec.2) (e : Expv) : β ≤ qvalT (keySum l e) := by
  induction l with
  | nil =>
    rw [keySum_nil, qvalT_zero]
    exact le_top
  | cons ec rest ih =>
    rw [keySum_cons]
    refine le_trans (le_min ?_ (ih (fun ec' h' => h ec' (List.mem_cons_of_mem _ h')))) (qvalT_add _ _)
    by_cases he : ec.1 = e
    · rw [if_pos he]
      exact h ec (List.mem_cons_self ec rest)
    · rw [if_neg he, qvalT_zero]
      exact le_top

theorem mulTermP_val_ge (β : WithTop ℤ) (e0 : Expv) (q : Poly)
    (hq : ∀ ec ∈ q, β ≤ qvalT ec.2) :
    ∀ ec ∈ mulTermP e0 1 q, β ≤ qvalT ec.2 := by
  intro ec hec
  rw [mulTermP, List.mem_map] at hec
  obtain ⟨ec0, hec0, rfl⟩ := hec
  show β ≤ qvalT (1 * ec0.2)
  rw [one_mul]
  exact hq ec0 hec0

theorem convC_insT (e0 : Expv) (c0 : ℚ) (q : Poly) (e : Expv) :
    ∀ (p : Poly),
      convC (insT e0 c0 p) q e =
        convC p q e + c0 * keySum (mulTermP e0 1 q) e := by
  intro p
  induction p with
  | nil =>
    by_cases hc : c0 = 0
    · simp [insT, hc, convC_nil]
    · rw [insT, if_neg hc, convC_cons]
      dsimp only
      rw [keySum_smul e0 c0 q e, convC_nil]
      ring
  | cons ec rest ih =>
    cases hcmp : lexCmp e0 ec.1 with
    | lt =>
      by_cases hc : c0 = 0
      · simp [insT, hcmp, hc]
      · rw [insT, hcmp]
        simp only [if_neg hc]
        rw [convC_cons, convC_cons, keySum_smul]
        ring
    | eq =>
      have he : e0 = ec.1 := (lexCmp_eq_iff e0 ec.1).1 hcmp
      by_cases hc : c0 + ec.2 = 0
      · rw [insT, hcmp]
        simp only [if_pos hc]
        rw [convC_cons, keySum_smul, ← he]
        have hec2 : ec.2 = -c0 := by linarith
        rw [hec2]
        ring
      · rw [insT, hcmp]
        simp only [if_neg hc]
        rw [convC_cons, convC_cons]
        dsimp only
        rw [← he]
        rw [keySum_smul e0 (c0 + ec.2) q e, keySum_smul e0 ec.2 q e]
        ring
    | gt =>
      rw [insT, hcmp, convC_cons, convC_cons, ih]
      ring

/-! ## Elements: the model of `TateAlgebraElement` -/

structure TateAlgebraElement where
  poly : Poly
  prec : WithTop ℤ
deriving DecidableEq

namespace TateAlgebraElement

/-- `__init__`, generic path: store the (already canonical) mapping,
set `_prec = min(Infinity, prec)` and, when `reduce` is set, truncate
every coefficient at the absolute precision. -/
def make (p : Poly) (prec : WithTop ℤ) (reduce : Bool) : TateAlgebraElement :=
  { poly := if reduce then reduceP prec p else p, prec := prec }

/-- `precision_absolute`. -/
def precision_absolute (f : TateAlgebraElement) : WithTop ℤ := f.prec

/-- `is_zero()` (no precision argument): exact test on the reduced mapping. -/
def is_zero (f : TateAlgebraElement) : Bool := f.poly.isEmpty

/-- Insertion into a descending-sorted term list. -/
def tinsert (A : TateAlgebra) (t : TateAlgebraTerm) :
    List TateAlgebraTerm → List TateAlgebraTerm
  | [] => [t]
  | u :: us =>
    if TateAlgebraTerm.cmp A t u = .gt then t :: u :: us
    else u :: tinsert A t us

/-- `terms()`: the terms sorted in descending term order. -/
def terms (A : TateAlgebra) (f : TateAlgebraElement) : List TateAlgebraTerm :=
  if f.is_zero then []
  else f.poly.foldr (fun ec acc => tinsert A ⟨ec.2, ec.1⟩ acc) []

/-- `leading_term()`: `None` on the zero element. -/
def leading_term (A : TateAlgebra) (f : TateAlgebraElement) :
    Option TateAlgebraTerm :=
  if f.is_zero then none else (terms A f).head?

/-- `leading_coefficient()`: on the zero element the source executes
`self.base_ring(0)`; `base_ring` is the zero-argument accessor (the
same file calls it as `self.base_ring()` everywhere else), so passing
the argument `0` raises a `TypeError`.  On a nonzero element the
leading term's coefficient is returned. -/
def leading_coefficient (A : TateAlgebra) (f : TateAlgebraElement) :
    Except String ℚ :=
  if f.is_zero then .error ("TypeError")
  else
    match leading_term A f with
    | some t => .ok t.coeff
    | none => .error ("TypeError")

/-- `valuation()`: capped at the algebra's precision cap; the cap on the
zero element. -/
def valuation (A : TateAlgebra) (f : TateAlgebraElement) : ℤ :=
  if f.is_zero then A.cap
  else
    match leading_term A f with
    | some t => min (TateAlgebraTerm.valuation A t) A.cap
    | none => A.cap

/-- `_add_`: mapping sum; precision is the min of the two precisions. -/
def add (f g : TateAlgebraElement) : TateAlgebraElement :=
  make (addP f.poly g.poly) (min f.prec g.prec) true

/-- `_neg_`: negate every coefficient, same precision, no re-reduction. -/
def neg (f : TateAlgebraElement) : TateAlgebraElement :=
  make (negP f.poly) f.prec false

/-- `_sub_`. -/
def sub (f g : TateAlgebraElement) : TateAlgebraElement :=
  make (subP f.poly g.poly) (min f.prec g.prec) true

/-- `_mul_`: polynomial product;
precision `min(prec(a) + val(b), prec(b) + val(a))`. -/
def mul (A : TateAlgebra) (f g : TateAlgebraElement) : TateAlgebraElement :=
  make (mulP f.poly g.poly)
    (min (f.prec + ((valuation A g : ℤ) : WithTop ℤ))
         (g.prec + ((valuation A f : ℤ) : WithTop ℤ))) true

/-- `_lmul_`: scaling by a base-ring element `r`;
precision `prec(a) + val(r)`. -/
def lmul (r : ℚ) (f : TateAlgebraElement) : TateAlgebraElement :=
  make (scaleP r f.poly) (f.prec + qvalT r) true

/-- `add_bigoh(n)`: truncate to absolute precision `n`
(`__init__` same-parent path with a precision argument). -/
def add_bigoh (f : TateAlgebraElement) (n : ℤ) : TateAlgebraElement :=
  make f.poly (min f.prec ((n : ℤ) : WithTop ℤ)) true

/-- Zp-style right shift of a base-ring element by `m` digits
(truncating for `m > 0`, an exact multiplication for `m ≤ 0`). -/
def baseRshift (c : ℚ) (m : ℤ) : ℚ :=
  if m ≤ 0 then c * two_zpow (-m)
  else (c - ((qmodPow c m.toNat : ℤ) : ℚ)) * two_zpow (-m)

/-- `_lshift`: multiply by the `n`-th power of the uniformizer.  Over a
field base this is exact; otherwise each coefficient is floor-shifted,
offset by the ceiling of its monomial's log-radius weight (an integer
here, as the model's log-radii are integers). -/
def lshift (A : TateAlgebra) (f : TateAlgebraElement) (n : ℤ) :
    TateAlgebraElement :=
  if A.is_field then
    make (f.poly.map fun ec => (ec.1, ec.2 * two_zpow n)) (f.prec + (n : WithTop ℤ)) false
  else
    make
      (canonP (f.poly.map fun ec =>
        (ec.1, baseRshift ec.2 (wdeg A.log_radii ec.1 - n) *
          two_zpow (wdeg A.log_radii ec.1))))
      (f.prec + (n : WithTop ℤ)) false

/-- `__lshift__(n) = _lshift(n)`. -/
def lshiftOp (A : TateAlgebra) (f : TateAlgebraElement) (n : ℤ) :
    TateAlgebraElement := lshift A f n

/-- `__rshift__(n) = _lshift(-n)`. -/
def rshiftOp (A : TateAlgebra) (f : TateAlgebraElement) (n : ℤ) :
    TateAlgebraElement := lshift A f (-n)

/-- `max(t.exponent())` (exponent entries are nonnegative). -/
def maxExp (e : Expv) : ℕ := e.foldr max 0

/-- `is_unit()`. -/
def is_unit (A : TateAlgebra) (f : TateAlgebraElement) : Bool :=
  if f.is_zero then false
  else
    match leading_term A f with
    | none => false
    | some t =>
      if maxExp t.exponent ≠ 0 then false
      else if !A.is_field && decide (0 < TateAlgebraTerm.valuation A t) then false
      else true

/-- The all-zero exponent vector. -/
def zeroExpv (A : TateAlgebra) : Expv := List.replicate A.ngens 0

/-- The Newton iteration `inv ← 2·inv − self·inv·inv`, run while the
trusted precision `p` (doubling each round) is below the cap. -/
def newtonLoop (A : TateAlgebra) (f : TateAlgebraElement) :
    ℕ → ℕ → TateAlgebraElement → TateAlgebraElement
  | 0, _, inv => inv
  | fuel + 1, p, inv =>
    if (p : ℤ) < A.cap then
      newtonLoop A f fuel (p * 2) (sub (lmul 2 inv) (mul A (mul A f inv) inv))
    else inv

/-- `inverse_of_unit()`.  (The source also binds the dead local
`x = self.add_bigoh(cap)`, never used afterwards; the loop iterates on
`self` directly.)  `val_unit` on the leading coefficient gives
`c = 2^v · cu`; the seed is the constant `cu⁻¹` at the precision cap
and the result is shifted by `v` at the end (`inv << v`). -/
def inverse_of_unit (A : TateAlgebra) (f : TateAlgebraElement) :
    Except String TateAlgebraElement :=
  if !is_unit A f then .error ("This series in not invertible")
  else
    match leading_term A f with
    | none => .error ("This series in not invertible")
    | some t =>
      let v := qval t.coeff
      let cu := t.coeff * two_zpow (-v)
      let inv0 := make (insT (zeroExpv A) cu⁻¹ []) ((A.cap : ℤ) : WithTop ℤ) true
      .ok (lshift A (newtonLoop A f (A.cap.toNat + 1) 1 inv0) v)

/-- The coercion of a `TateAlgebraTerm` to a `TateAlgebraElement`
(`__init__` Term path, same parent): coefficient times the monomial,
infinite precision. -/
def ofTerm (t : TateAlgebraTerm) : TateAlgebraElement :=
  { poly := insT t.exponent t.coeff [], prec := ⊤ }

/-- The scan over the divisor list inside `quo_rem`: find the first
divisor whose leading term divides `lt`, return the factor
`lt // ltd`, that divisor, and the quotient list with the factor
accumulated at the matching position (`q[i] += factor`).
By `TateAlgebraTerm.floordiv_of_divisible` the `//` never raises here,
so the unchecked quotient is used. -/
def findDivisor (A : TateAlgebra) (integral : Bool) (lt : TateAlgebraTerm) :
    List (TateAlgebraElement × TateAlgebraTerm) → List TateAlgebraElement →
    Option (TateAlgebraTerm × TateAlgebraElement × List TateAlgebraElement)
  | (d, ltd) :: rest, qi :: qs =>
    if TateAlgebraTerm.is_divisible_by A lt ltd integral then
      some (TateAlgebraTerm.quot lt ltd, d,
        add qi (ofTerm (TateAlgebraTerm.quot lt ltd)) :: qs)
    else
      (findDivisor A integral lt rest qs).map fun x => (x.1, x.2.1, qi :: x.2.2)
  | _, _ => none

/-- The `while not f.is_zero()` division loop, with explicit fuel
(`none` = the loop would still be running). -/
def quoRemLoop (A : TateAlgebra)
    (dl : List (TateAlgebraElement × TateAlgebraTerm)) (integral : Bool) :
    ℕ → TateAlgebraElement → List TateAlgebraElement → TateAlgebraElement →
    Option (List TateAlgebraElement × TateAlgebraElement)
  | 0, f, q, r => if f.is_zero then some (q, r) else none
  | fuel + 1, f, q, r =>
    if f.is_zero then some (q, r)
    else
      match leading_term A f with
      | none => none
      | some lt =>
        match findDivisor A integral lt dl q with
        | some (factor, d, q') =>
          quoRemLoop A dl integral fuel (sub f (mul A (ofTerm factor) d)) q' r
        | none =>
          quoRemLoop A dl integral fuel (sub f (ofTerm lt)) q
            (add r (ofTerm lt))

/-- Leading terms of all divisors; `none` if some divisor is zero (on
which the source crashes at its first use of the `None` leading term). -/
def seqLT (A : TateAlgebra) :
    List TateAlgebraElement → Option (List TateAlgebraTerm)
  | [] => some []
  | d :: ds =>
    match leading_term A d with
    | none => none
    | some t => (seqLT A ds).map (t :: ·)

/-- `quo_rem(divisors, integral=False)`: truncate the dividend to the
precision cap, seed the quotients at `cap − val(dᵢ)` and the remainder
at `cap`, then run the division loop. -/
def quo_rem (A : TateAlgebra) (f : TateAlgebraElement)
    (divisors : List TateAlgebraElement) (integral : Bool) (fuel : ℕ) :
    Option (List TateAlgebraElement × TateAlgebraElement) :=
  match seqLT A divisors with
  | none => none
  | some ltds =>
    quoRemLoop A (divisors.zip ltds) integral fuel
      (add_bigoh f A.cap)
      (divisors.map fun d => make [] (((A.cap - valuation A d : ℤ)) : WithTop ℤ) true)
      (make [] ((A.cap : ℤ) : WithTop ℤ) true)

end TateAlgebraElement

/-- Modelled from the spec: the ideal collaborator is outside the
engine (`I.groebner_basis()` is an external call); an ideal is
represented here by its Gröbner basis. -/
structure TateAlgebraIdeal where
  gb : List TateAlgebraElement

namespace TateAlgebraElement

/-- `reduce(I)`: divide by the Gröbner basis of `I`.  Note the source
returns the full `quo_rem` pair. -/
def reduce (A : TateAlgebra) (f : TateAlgebraElement) (I : TateAlgebraIdeal)
    (fuel : ℕ) : Option (List TateAlgebraElement × TateAlgebraElement) :=
  quo_rem A f I.gb false fuel

/-- `__init__` on an Element of another ambient algebra `S`
(target algebra `P`): copy when the parents coincide; with equal
variable names, check the log-radii against the ramification scale
and rescale the precision; otherwise a type error. -/
def ofElement (P S : TateAlgebra) (x : TateAlgebraElement)
    (prec : WithTop ℤ) : Except String TateAlgebraElement :=
  if S = P then .ok (make x.poly (min x.prec prec) true)
  else if S.names = P.names then
    if (P.log_radii.zip S.log_radii).any
        (fun rr => decide ((rr.1 : ℚ) >
          (rr.2 : ℚ) * ((P.abs_e : ℚ) / (S.abs_e : ℚ)))) then
      .error ("Cannot restrict to a bigger domain")
    else
      .ok (make x.poly
        (min
          (if x.prec = ⊤ then (⊤ : WithTop ℤ)
           else ((⌈((x.prec.untop' 0 : ℤ) : ℚ) *
              ((P.abs_e : ℚ) / (S.abs_e : ℚ))⌉ : ℤ) : WithTop ℤ))
          prec) true)
  else .error ("Variable names do not match")

/-- `__init__` on a Term of another ambient algebra `S` (target `P`):
with equal variable names, the same log-radii check; with differing
names the source falls through without assigning `_poly` and crashes
at the first later use (modelled as a failure). -/
def ofTermOf (P S : TateAlgebra) (t : TateAlgebraTerm)
    (prec : WithTop ℤ) : Except String TateAlgebraElement :=
  if S.names = P.names then
    if (P.log_radii.zip S.log_radii).any
        (fun rr => decide ((rr.1 : ℚ) >
          (rr.2 : ℚ) * ((P.abs_e : ℚ) / (S.abs_e : ℚ)))) then
      .error ("Cannot restrict to a bigger domain")
    else
      .ok (make (insT t.exponent t.coeff []) prec true)
  else .error ("The attribute _poly was never assigned")

end TateAlgebraElement

/-! ## Generic helper lemmas -/

def isOkE {ε α : Type} : Except ε α → Bool
  | .ok _ => true
  | .error _ => false

theorem then_swap (o p : Ordering) : (o.then p).swap = o.swap.then p.swap := by
  cases o <;> rfl

theorem intCompare_swap (a b : ℤ) : compare b a = (compare a b).swap := by
  rcases lt_trichotomy a b with h | h | h
  · rw [compare_lt_iff_lt.2 h, compare_gt_iff_gt.2 h]
    rfl
  · rw [h, compare_eq_iff_eq.2 rfl]
    rfl
  · rw [compare_gt_iff_gt.2 h, compare_lt_iff_lt.2 h]
    rfl

namespace TateAlgebraTerm

theorem cmp_eq_iff (A : TateAlgebra) (t u : TateAlgebraTerm) :
    cmp A t u = .eq ↔
      (valuation A t = valuation A u ∧ t.exponent = u.exponent) := by
  rw [cmp, then_eq_eq, compare_eq_iff_eq, neg_inj, lexCmp_eq_iff]

theorem cmp_swap (A : TateAlgebra) (t u : TateAlgebraTerm) :
    cmp A u t = (cmp A t u).swap := by
  rw [cmp, cmp, then_swap, intCompare_swap, lexCmp_swap]

theorem cmp_lt_trans (A : TateAlgebra) (t u w : TateAlgebraTerm) :
    cmp A t u = .lt → cmp A u w = .lt → cmp A t w = .lt := by
  intro htu huw
  rw [cmp, then_eq_lt] at htu huw ⊢
  rcases htu with htu | ⟨htu, htu2⟩ <;> rcases huw with huw | ⟨huw, huw2⟩
  · exact Or.inl (compare_lt_iff_lt.2
      (lt_trans (compare_lt_iff_lt.1 htu) (compare_lt_iff_lt.1 huw)))
  · have heq := compare_eq_iff_eq.1 huw
    rw [heq] at htu
    exact Or.inl htu
  · have heq := compare_eq_iff_eq.1 htu
    rw [← heq] at huw
    exact Or.inl huw
  · have heq := compare_eq_iff_eq.1 htu
    rw [heq]
    exact Or.inr ⟨huw, lexCmp_lt_trans _ _ _ htu2 huw2⟩

end TateAlgebraTerm

namespace TateAlgebraElement

theorem tinsert_ne_nil (A : TateAlgebra) (t : TateAlgebraTerm)
    (l : List TateAlgebraTerm) : tinsert A t l ≠ [] := by
  cases l with
  | nil => simp [tinsert]
  | cons u us =>
    rw [tinsert]
    by_cases h : TateAlgebraTerm.cmp A t u = .gt <;> simp [h]

theorem exists_leading_term (A : TateAlgebra) (f : TateAlgebraElement)
    (h : f.is_zero = false) : ∃ t, leading_term A f = some t := by
  have hne : ¬ (f.is_zero = true) := by simp [h]
  rw [leading_term, if_neg hne, terms, if_neg hne]
  cases hp : f.poly with
  | nil =>
    exfalso
    apply hne
    rw [is_zero, hp]
    rfl
  | cons ec rest =>
    rw [List.foldr_cons]
    cases hins : tinsert A ⟨ec.2, ec.1⟩
        (List.foldr (fun ec acc => tinsert A ⟨ec.2, ec.1⟩ acc) [] rest) with
    | nil => exact absurd hins (tinsert_ne_nil A _ _)
    | cons a l =>
      exact ⟨a, rfl⟩

/-- Evaluation of `is_unit` through the leading term. -/
theorem is_unit_eval (A : TateAlgebra) (f : TateAlgebraElement)
    (t : TateAlgebraTerm) (hz : ¬ f.is_zero = true)
    (ht : leading_term A f = some t) :
    is_unit A f =
      (if maxExp t.exponent ≠ 0 then false
       else if (!A.is_field && decide (0 < TateAlgebraTerm.valuation A t)) then
         false
       else true) := by
  rw [is_unit, if_neg hz, ht]

/-- Characterization of `is_unit = false`: zero, or the leading term
has a nonzero exponent, or (non-field base) positive valuation. -/
theorem is_unit_eq_false_iff (A : TateAlgebra) (f : TateAlgebraElement) :
    is_unit A f = false ↔
      (f.is_zero = true ∨
        ∃ t, leading_term A f = some t ∧
          (maxExp t.exponent ≠ 0 ∨
            (A.is_field = false ∧ 0 < TateAlgebraTerm.valuation A t))) := by
  by_cases hz : f.is_zero = true
  · simp [is_unit, hz]
  · have hz' : f.is_zero = false := by
      cases h : f.is_zero
      · rfl
      · exact absurd h hz
    obtain ⟨t, ht⟩ := exists_leading_term A f hz'
    rw [is_unit_eval A f t hz ht]
    constructor
    · intro h
      by_cases h1 : maxExp t.exponent ≠ 0
      · exact Or.inr ⟨t, ht, Or.inl h1⟩
      · rw [if_neg h1] at h
        by_cases h2 : (!A.is_field && decide (0 < TateAlgebraTerm.valuation A t)) = true
        · refine Or.inr ⟨t, ht, Or.inr ?_⟩
          simp only [Bool.and_eq_true, Bool.not_eq_true', decide_eq_true_eq] at h2
          exact h2
        · rw [if_neg h2] at h
          exact absurd h (by simp)
    · intro h
      rcases h with h | ⟨t', ht', hcond⟩
      · exact absurd h hz
      · rw [ht] at ht'
        injection ht' with ht''
        subst ht''
        rcases hcond with h1 | h2
        · rw [if_pos h1]
        · by_cases h1 : maxExp t.exponent ≠ 0
          · rw [if_pos h1]
          · rw [if_neg h1, if_pos]
            simp only [Bool.and_eq_true, Bool.not_eq_true', decide_eq_true_eq]
            exact h2

/-- `inverse_of_unit` fails exactly on non-units. -/
theorem inverse_of_unit_isOk_iff (A : TateAlgebra) (f : TateAlgebraElement) :
    isOkE (inverse_of_unit A f) = true ↔ is_unit A f = true := by
  rw [inverse_of_unit]
  by_cases hu : is_unit A f = true
  · have hnz : f.is_zero = false := by
      cases hz : f.is_zero
      · rfl
      · rw [is_unit, if_pos hz] at hu
        exact absurd hu (by simp)
    obtain ⟨t, ht⟩ := exists_leading_term A f hnz
    rw [hu]
    simp only [Bool.not_true]
    rw [if_neg (by simp), ht]
    simp [isOkE]
  · have hu' : is_unit A f = false := by
      cases h : is_unit A f
      · rfl
      · exact absurd h hu
    rw [hu']
    simp only [Bool.not_false, if_pos]
    simp [isOkE, hu']

end TateAlgebraElement

/-! ## Division-loop correctness toolkit -/

theorem pCoeff_of_mem (p : Poly) (hp : SortedKeys p) (e : Expv) (c : ℚ)
    (h : (e, c) ∈ p) : pCoeff p e = c := by
  induction p with
  | nil => exact absurd h (List.not_mem_nil _)
  | cons ec rest ih =>
    rw [SortedKeys, List.pairwise_cons] at hp
    obtain ⟨hhead, hrest⟩ := hp
    rcases List.mem_cons.1 h with h1 | h1
    · rw [pCoeff, ← h1]
      rw [if_pos rfl]
    · have hne : e ≠ ec.1 := by
        intro hcon
        have h2 := hhead (e, c) h1
        rw [hcon] at h2
        rw [lexCmp_self] at h2
        exact Ordering.noConfusion h2
      rw [pCoeff, if_neg hne]
      exact ih hrest h1

theorem pCoeff_mem (p : Poly) (e : Expv) (h : pCoeff p e ≠ 0) :
    (e, pCoeff p e) ∈ p := by
  induction p with
  | nil => exact absurd rfl h
  | cons ec rest ih =>
    rw [pCoeff] at h ⊢
    by_cases he : e = ec.1
    · rw [if_pos he] at h ⊢
      rw [he]
      exact List.mem_cons_self _ _
    · rw [if_neg he] at h ⊢
      exact List.mem_cons_of_mem _ (ih h)

theorem wdeg_zero (lr : List ℤ) (hlr : ∀ x ∈ lr, x = 0) (e : Expv) :
    wdeg lr e = 0 := by
  rw [wdeg]
  have key : ∀ (l1 : List ℤ) (l2 : List ℤ), (∀ x ∈ l1, x = 0) →
      (List.zipWith (fun r x => r * x) l1 l2).sum = 0 := by
    intro l1
    induction l1 with
    | nil =>
      intro l2 _
      simp
    | cons x xs ih =>
      intro l2 h2
      cases l2 with
      | nil => simp
      | cons y ys =>
        rw [List.zipWith_cons_cons, List.sum_cons,
          h2 x (List.mem_cons_self x xs),
          ih ys (fun z hz => h2 z (List.mem_cons_of_mem x hz))]
        ring
  exact key lr _ hlr

namespace TateAlgebraTerm

theorem cmp_self (A : TateAlgebra) (t : TateAlgebraTerm) :
    cmp A t t = .eq := (cmp_eq_iff A t t).2 ⟨rfl, rfl⟩

theorem cmp_gt_trans (A : TateAlgebra) (t u w : TateAlgebraTerm)
    (htu : cmp A t u = .gt) (huw : cmp A u w = .gt) : cmp A t w = .gt := by
  have h1 : cmp A u t = .lt := by
    rw [cmp_swap, htu]
    rfl
  have h2 : cmp A w u = .lt := by
    rw [cmp_swap, huw]
    rfl
  have h3 := cmp_lt_trans A w u t h2 h1
  rw [cmp_swap A w t, h3]
  rfl

theorem cmp_lt_iff (A : TateAlgebra) (t u : TateAlgebraTerm) :
    cmp A t u = .lt ↔
      (valuation A u < valuation A t ∨
        (valuation A t = valuation A u ∧
          lexCmp t.exponent u.exponent = .lt)) := by
  rw [cmp, then_eq_lt, compare_lt_iff_lt, compare_eq_iff_eq, neg_inj]
  constructor
  · rintro (h | ⟨h1, h2⟩)
    · exact Or.inl (by omega)
    · exact Or.inr ⟨h1, h2⟩
  · rintro (h | ⟨h1, h2⟩)
    · exact Or.inl (by omega)
    · exact Or.inr ⟨h1, h2⟩

theorem cmp_ne_gt_val (A : TateAlgebra) (t u : TateAlgebraTerm)
    (h : cmp A t u ≠ .gt) : valuation A u ≤ valuation A t := by
  by_contra hcon
  apply h
  rw [cmp]
  have h2 : compare (-(valuation A t)) (-(valuation A u)) = .gt :=
    compare_gt_iff_gt.2 (by omega)
  rw [h2]
  rfl

theorem cmp_congr_left (A : TateAlgebra) (c c' : ℚ) (e : Expv)
    (u : TateAlgebraTerm) (h : qval c = qval c') :
    cmp A ⟨c, e⟩ u = cmp A ⟨c', e⟩ u := by
  simp only [cmp, valuation]
  rw [h]

theorem cmp_congr_right (A : TateAlgebra) (c c' : ℚ) (e : Expv)
    (u : TateAlgebraTerm) (h : qval c = qval c') :
    cmp A u ⟨c, e⟩ = cmp A u ⟨c', e⟩ := by
  rw [cmp_swap, cmp_congr_left A c c' e u h, ← cmp_swap]

theorem is_divisible_by_congr (A : TateAlgebra) (c c' : ℚ) (e : Expv)
    (u : TateAlgebraTerm) (i : Bool) (h : qval c = qval c') :
    is_divisible_by A ⟨c, e⟩ u i = is_divisible_by A ⟨c', e⟩ u i := by
  simp only [is_divisible_by, valuation]
  simp only [h]

end TateAlgebraTerm

theorem qval_neg (c : ℚ) (hc : c ≠ 0) : qval (-c) = qval c := by
  have h := qvalT_neg c
  rw [qvalT_ne_zero _ hc, qvalT_ne_zero _ (neg_ne_zero.2 hc)] at h
  exact_mod_cast h

theorem qval_mul (a b : ℚ) (ha : a ≠ 0) (hb : b ≠ 0) :
    qval (a * b) = qval a + qval b := by
  have h := qvalT_mul a b
  rw [qvalT_ne_zero _ ha, qvalT_ne_zero _ hb,
    qvalT_ne_zero _ (mul_ne_zero ha hb), ← WithTop.coe_add] at h
  exact_mod_cast h

theorem qval_truncQ (N : WithTop ℤ) (c : ℚ) (h : truncQ N c ≠ 0) :
    qval (truncQ N c) = qval c := by
  have hc : c ≠ 0 := by
    intro hcon
    rw [hcon, truncQ_zero] at h
    exact h rfl
  have h2 := truncQ_val N c h
  rw [qvalT_ne_zero _ h, qvalT_ne_zero _ hc] at h2
  exact_mod_cast h2

theorem qval_add_ge (a b : ℚ) (hab : a + b ≠ 0) (ha : a ≠ 0) (hb : b ≠ 0) :
    min (qval a) (qval b) ≤ qval (a + b) := by
  have h := qvalT_add a b
  rw [qvalT_ne_zero _ ha, qvalT_ne_zero _ hb, qvalT_ne_zero _ hab] at h
  rw [← WithTop.coe_min] at h
  exact_mod_cast h

theorem qval_add_eq (a b : ℚ) (ha : a ≠ 0) (h : qval a < qval b) :
    qval (a + b) = qval a := by
  by_cases hb : b = 0
  · rw [hb, add_zero]
  have h2 : qvalT a < qvalT b := by
    rw [qvalT_ne_zero _ ha, qvalT_ne_zero _ hb]
    exact_mod_cast h
  have h3 := qvalT_add_of_lt a b h2
  have hab : a + b ≠ 0 := by
    intro hcon
    rw [hcon, qvalT_zero] at h3
    rw [qvalT_ne_zero _ ha] at h3
    exact WithTop.coe_ne_top h3.symm
  rw [qvalT_ne_zero _ hab, qvalT_ne_zero _ ha] at h3
  exact_mod_cast h3

namespace TateAlgebraElement

theorem mem_tinsert_iff (A : TateAlgebra) (t : TateAlgebraTerm)
    (l : List TateAlgebraTerm) (u : TateAlgebraTerm) :
    u ∈ tinsert A t l ↔ u = t ∨ u ∈ l := by
  induction l with
  | nil => simp [tinsert]
  | cons v vs ih =>
    rw [tinsert]
    by_cases h : TateAlgebraTerm.cmp A t v = .gt
    · rw [if_pos h]
      constructor
      · intro hu
        rcases List.mem_cons.1 hu with rfl | hu2
        · exact Or.inl rfl
        · exact Or.inr hu2
      · rintro (rfl | hu2)
        · exact List.mem_cons_self _ _
        · exact List.mem_cons_of_mem _ hu2
    · rw [if_neg h]
      constructor
      · intro hu
        rcases List.mem_cons.1 hu with rfl | hu2
        · exact Or.inr (List.mem_cons_self _ _)
        · rcases ih.1 hu2 with h3 | h3
          · exact Or.inl h3
          · exact Or.inr (List.mem_cons_of_mem _ h3)
      · rintro (rfl | hu2)
        · exact List.mem_cons_of_mem _ (ih.2 (Or.inl rfl))
        · rcases List.mem_cons.1 hu2 with rfl | h3
          · exact List.mem_cons_self _ _
          · exact List.mem_cons_of_mem _ (ih.2 (Or.inr h3))

theorem mem_termsFold (A : TateAlgebra) (l : Poly) (t : TateAlgebraTerm) :
    t ∈ List.foldr (fun ec acc => tinsert A ⟨ec.2, ec.1⟩ acc) [] l ↔
      ∃ ec ∈ l, t = (⟨ec.2, ec.1⟩ : TateAlgebraTerm) := by
  induction l with
  | nil => simp
  | cons ec rest ih =>
    rw [List.foldr_cons, mem_tinsert_iff, ih]
    constructor
    · rintro (rfl | ⟨ec', hec', rfl⟩)
      · exact ⟨ec, List.mem_cons_self _ _, rfl⟩
      · exact ⟨ec', List.mem_cons_of_mem _ hec', rfl⟩
    · rintro ⟨ec', hec', rfl⟩
      rcases List.mem_cons.1 hec' with rfl | h2
      · exact Or.inl rfl
      · exact Or.inr ⟨ec', h2, rfl⟩

theorem mem_terms_iff (A : TateAlgebra) (f : TateAlgebraElement)
    (t : TateAlgebraTerm) :
    t ∈ terms A f ↔ ∃ ec ∈ f.poly, t = (⟨ec.2, ec.1⟩ : TateAlgebraTerm) := by
  rw [terms]
  by_cases hz : f.is_zero = true
  · rw [if_pos hz]
    have hp : f.poly = [] := by
      rw [is_zero] at hz
      exact List.isEmpty_iff.1 hz
    rw [hp]
    simp
  · rw [if_neg hz]
    exact mem_termsFold A f.poly t

/-- The head of a `tinsert`-built list is a maximum for the term order. -/
theorem tinsert_headMax (A : TateAlgebra) (t : TateAlgebraTerm)
    (l : List TateAlgebraTerm)
    (hl : ∀ h, l.head? = some h → ∀ u ∈ l, TateAlgebraTerm.cmp A u h ≠ .gt) :
    ∀ h, (tinsert A t l).head? = some h →
      ∀ u ∈ tinsert A t l, TateAlgebraTerm.cmp A u h ≠ .gt := by
  cases l with
  | nil =>
    intro h hh u hu
    rw [tinsert] at hh hu
    rw [List.head?_cons] at hh
    injection hh with hh
    subst hh
    rcases List.mem_singleton.1 hu with rfl
    rw [TateAlgebraTerm.cmp_self]
    intro hcon
    exact Ordering.noConfusion hcon
  | cons v vs =>
    intro h hh u hu
    rw [tinsert] at hh hu
    by_cases hc : TateAlgebraTerm.cmp A t v = .gt
    · rw [if_pos hc] at hh hu
      rw [List.head?_cons] at hh
      injection hh with hh
      subst hh
      rcases List.mem_cons.1 hu with rfl | hu2
      · rw [TateAlgebraTerm.cmp_self]
        intro hcon
        exact Ordering.noConfusion hcon
      · intro hcon
        have hv := hl v (List.head?_cons) u hu2
        exact hv (TateAlgebraTerm.cmp_gt_trans A u t v hcon hc)
    · rw [if_neg hc] at hh hu
      rw [List.head?_cons] at hh
      injection hh with hh
      subst hh
      rcases List.mem_cons.1 hu with rfl | hu2
      · rw [TateAlgebraTerm.cmp_self]
        intro hcon
        exact Ordering.noConfusion hcon
      · rcases (mem_tinsert_iff A t vs u).1 hu2 with rfl | hu3
        · exact hc
        · exact hl v (List.head?_cons) u (List.mem_cons_of_mem _ hu3)

theorem termsFold_headMax (A : TateAlgebra) (l : Poly) :
    ∀ h, (List.foldr (fun ec acc => tinsert A ⟨ec.2, ec.1⟩ acc) [] l).head? =
        some h →
      ∀ u ∈ List.foldr (fun ec acc => tinsert A ⟨ec.2, ec.1⟩ acc) [] l,
        TateAlgebraTerm.cmp A u h ≠ .gt := by
  induction l with
  | nil =>
    intro h hh
    exact absurd hh (by simp)
  | cons ec rest ih =>
    rw [List.foldr_cons]
    exact tinsert_headMax A _ _ ih

/-- Characterization of the leading term: it is one of the stored
monomials and it is maximal for the term order. -/
theorem leading_term_spec (A : TateAlgebra) (f : TateAlgebraElement)
    (lt : TateAlgebraTerm) (h : leading_term A f = some lt) :
    (∃ ec ∈ f.poly, lt = (⟨ec.2, ec.1⟩ : TateAlgebraTerm)) ∧
      (∀ ec ∈ f.poly,
        TateAlgebraTerm.cmp A (⟨ec.2, ec.1⟩ : TateAlgebraTerm) lt ≠ .gt) := by
  rw [leading_term] at h
  by_cases hz : f.is_zero = true
  · rw [if_pos hz] at h
    exact Option.noConfusion h
  · rw [if_neg hz, terms, if_neg hz] at h
    constructor
    · have hmem : lt ∈ List.foldr
          (fun ec acc => tinsert A ⟨ec.2, ec.1⟩ acc) [] f.poly := by
        cases hl : List.foldr (fun ec acc => tinsert A ⟨ec.2, ec.1⟩ acc) []
            f.poly with
        | nil =>
          rw [hl] at h
          exact Option.noConfusion h
        | cons a l2 =>
          rw [hl, List.head?_cons] at h
          injection h with h
          subst h
          exact List.mem_cons_self _ _
      exact (mem_termsFold A f.poly lt).1 hmem
    · intro ec hec
      refine termsFold_headMax A f.poly lt h _ ?_
      exact (mem_termsFold A f.poly _).2 ⟨ec, hec, rfl⟩

/-- The leading term's coefficient is the stored coefficient at the
leading exponent. -/
theorem leading_term_pCoeff (A : TateAlgebra) (f : TateAlgebraElement)
    (lt : TateAlgebraTerm) (hs : SortedKeys f.poly)
    (h : leading_term A f = some lt) :
    (lt.exponent, lt.coeff) ∈ f.poly ∧ pCoeff f.poly lt.exponent = lt.coeff := by
  obtain ⟨⟨ec, hec, rfl⟩, _⟩ := leading_term_spec A f lt h
  constructor
  · exact hec
  · exact pCoeff_of_mem f.poly hs ec.1 ec.2 hec

/-- Any stored monomial other than the leading one is strictly below
the leading term. -/
theorem leading_term_strict (A : TateAlgebra) (f : TateAlgebraElement)
    (lt : TateAlgebraTerm) (hs : SortedKeys f.poly)
    (h : leading_term A f = some lt) :
    ∀ ec ∈ f.poly, ec.1 ≠ lt.exponent →
      TateAlgebraTerm.cmp A (⟨ec.2, ec.1⟩ : TateAlgebraTerm) lt = .lt := by
  intro ec hec hne
  have hng := (leading_term_spec A f lt h).2 ec hec
  cases hcmp : TateAlgebraTerm.cmp A (⟨ec.2, ec.1⟩ : TateAlgebraTerm) lt with
  | lt => rfl
  | eq =>
    obtain ⟨_, hexp⟩ := (TateAlgebraTerm.cmp_eq_iff A _ lt).1 hcmp
    exact absurd hexp hne
  | gt => exact absurd hcmp hng

end TateAlgebraElement

theorem lexCmp_lt_ne (a b : Expv) (h : lexCmp a b = .lt) : a ≠ b := by
  intro hcon
  rw [hcon, lexCmp_self] at h
  exact Ordering.noConfusion h

theorem esub_length (a b : Expv) :
    (esub a b).length = min a.length b.length := by
  rw [esub, List.length_zipWith]

theorem esub_eadd_cancel : ∀ (a b : Expv), a.length = b.length →
    TateAlgebraTerm.expGe a b = true → eadd (esub a b) b = a := by
  intro a
  induction a with
  | nil =>
    intro b hlen _
    cases b with
    | nil => rfl
    | cons y ys => exact absurd hlen (by simp)
  | cons x xs ih =>
    intro b hlen hge
    cases b with
    | nil => exact absurd hlen (by simp)
    | cons y ys =>
      rw [TateAlgebraTerm.expGe, Bool.and_eq_true, decide_eq_true_eq] at hge
      have h2 := ih ys (by simpa using hlen) hge.2
      simp only [esub, eadd, List.zipWith_cons_cons] at h2 ⊢
      rw [Nat.sub_add_cancel hge.1, h2]

theorem eadd_left_cancel : ∀ (s a b : Expv), a.length = s.length →
    b.length = s.length → eadd s a = eadd s b → a = b := by
  intro s
  induction s with
  | nil =>
    intro a b ha hb _
    simp only [List.length_nil] at ha hb
    rw [List.length_eq_zero] at ha hb
    rw [ha, hb]
  | cons x xs ih =>
    intro a b ha hb h
    cases a with
    | nil => exact absurd ha (by simp)
    | cons y ys =>
      cases b with
      | nil => exact absurd hb (by simp)
      | cons z zs =>
        rw [eadd, eadd, List.zipWith_cons_cons, List.zipWith_cons_cons] at h
        injection h with h1 h2
        have hy : y = z := by omega
        rw [hy, ih ys zs (by simpa using ha) (by simpa using hb) h2]

theorem keySum_mulTermP_hit (n : ℕ) (q : Poly) (hq : SortedKeys q)
    (hqlen : PolyLen n q) (e0 : Expv) (he0 : e0.length = n)
    (e1 : Expv) (c1 : ℚ) (hmem : (e1, c1) ∈ q) :
    keySum (mulTermP e0 1 q) (eadd e0 e1) = c1 := by
  induction q with
  | nil => exact absurd hmem (List.not_mem_nil _)
  | cons ec rest ih =>
    rw [SortedKeys, List.pairwise_cons] at hq
    obtain ⟨hhead, hrest⟩ := hq
    rw [mulTermP, List.map_cons, keySum_cons, ← mulTermP]
    rcases List.mem_cons.1 hmem with h1 | h1
    · have hec : ec = (e1, c1) := h1.symm
      subst hec
      rw [if_pos rfl]
      have hz : keySum (mulTermP e0 1 rest) (eadd e0 e1) = 0 := by
        apply keySum_not_key
        intro ec' hec'
        rw [mulTermP, List.mem_map] at hec'
        obtain ⟨ec0, hec0, rfl⟩ := hec'
        intro hcon
        have hne := lexCmp_lt_ne _ _ (hhead ec0 hec0)
        dsimp only at hcon hne
        have h5 := hqlen (e1, c1) (List.mem_cons_self _ _)
        have h6 := hqlen ec0 (List.mem_cons_of_mem _ hec0)
        dsimp only at h5
        exact hne (eadd_left_cancel e0 e1 ec0.1 (by omega) (by omega) hcon.symm)
      rw [hz, one_mul, add_zero]
    · have hne : ¬ eadd e0 ec.1 = eadd e0 e1 := by
        intro hcon
        have h5 := hqlen ec (List.mem_cons_self _ _)
        have h6 := hqlen (e1, c1) (List.mem_cons_of_mem _ h1)
        dsimp only at h6
        have h2 := eadd_left_cancel e0 ec.1 e1 (by omega) (by omega) hcon
        have h3 := hhead (e1, c1) h1
        dsimp only at h3
        rw [← h2, lexCmp_self] at h3
        exact Ordering.noConfusion h3
      rw [if_neg hne, zero_add]
      exact ih hrest (fun x hx => hqlen x (List.mem_cons_of_mem _ hx)) h1

theorem keySum_mulTermP_cases (n : ℕ) (q : Poly) (hq : SortedKeys q)
    (hqlen : PolyLen n q) (e0 : Expv) (he0 : e0.length = n) (e : Expv) :
    keySum (mulTermP e0 1 q) e = 0 ∨
      ∃ ec ∈ q, eadd e0 ec.1 = e ∧ keySum (mulTermP e0 1 q) e = ec.2 := by
  induction q with
  | nil => exact Or.inl rfl
  | cons ec rest ih =>
    rw [SortedKeys, List.pairwise_cons] at hq
    obtain ⟨hhead, hrest⟩ := hq
    rw [mulTermP, List.map_cons, keySum_cons, ← mulTermP]
    by_cases hmatch : eadd e0 ec.1 = e
    · refine Or.inr ⟨ec, List.mem_cons_self _ _, hmatch, ?_⟩
      dsimp only
      rw [if_pos hmatch]
      have hz : keySum (mulTermP e0 1 rest) e = 0 := by
        apply keySum_not_key
        intro ec' hec'
        rw [mulTermP, List.mem_map] at hec'
        obtain ⟨ec0, hec0, rfl⟩ := hec'
        intro hcon
        dsimp only at hcon
        have hne := lexCmp_lt_ne _ _ (hhead ec0 hec0)
        rw [← hmatch] at hcon
        have h5 := hqlen ec (List.mem_cons_self _ _)
        have h6 := hqlen ec0 (List.mem_cons_of_mem _ hec0)
        exact hne (eadd_left_cancel e0 ec.1 ec0.1 (by omega) (by omega)
          hcon.symm)
      rw [hz, one_mul, add_zero]
    · rw [if_neg hmatch, zero_add]
      rcases ih hrest (fun x hx => hqlen x (List.mem_cons_of_mem _ hx)) with
        h | ⟨ec', hec', hm, hv⟩
      · exact Or.inl h
      · exact Or.inr ⟨ec', List.mem_cons_of_mem _ hec', hm, hv⟩

theorem keySum_insT_nil (e0 : Expv) (c : ℚ) (e : Expv) :
    keySum (insT e0 c []) e = if e0 = e then c else 0 := by
  by_cases hc : c = 0
  · rw [insT, if_pos hc, keySum_nil]
    by_cases he : e0 = e
    · rw [if_pos he, hc]
    · rw [if_neg he]
  · rw [insT, if_neg hc, keySum_cons, keySum_nil, add_zero]

theorem truncQ_top (c : ℚ) : truncQ ⊤ c = c := by
  rw [truncQ, if_pos rfl]

theorem addP_single (p : Poly) (x : Expv × ℚ) :
    addP p [x] = insT x.1 x.2 p := rfl

namespace TateAlgebraElement

theorem sub_prec (f g : TateAlgebraElement) :
    (sub f g).prec = min f.prec g.prec := rfl

theorem add_prec (f g : TateAlgebraElement) :
    (add f g).prec = min f.prec g.prec := rfl

theorem sub_pCoeff (f g : TateAlgebraElement) (hf : SortedKeys f.poly)
    (hg : SortedKeys g.poly) (e : Expv) :
    pCoeff (sub f g).poly e =
      truncQ (min f.prec g.prec) (pCoeff f.poly e - pCoeff g.poly e) := by
  show pCoeff (reduceP (min f.prec g.prec) (subP f.poly g.poly)) e = _
  rw [reduceP_pCoeff _ _ (subP_sorted _ _ hf), subP_pCoeff _ _ hf hg]

theorem add_pCoeff (f g : TateAlgebraElement) (hf : SortedKeys f.poly)
    (e : Expv) :
    pCoeff (add f g).poly e =
      truncQ (min f.prec g.prec) (pCoeff f.poly e + keySum g.poly e) := by
  show pCoeff (reduceP (min f.prec g.prec) (addP f.poly g.poly)) e = _
  rw [reduceP_pCoeff _ _ (addP_sorted _ _ hf), addP_pCoeff _ _ hf]

theorem sub_sorted (f g : TateAlgebraElement) (hf : SortedKeys f.poly) :
    SortedKeys (sub f g).poly :=
  reduceP_sorted _ _ (subP_sorted _ _ hf)

theorem add_sorted (f g : TateAlgebraElement) (hf : SortedKeys f.poly) :
    SortedKeys (add f g).poly :=
  reduceP_sorted _ _ (addP_sorted _ _ hf)

theorem sub_nzP (f g : TateAlgebraElement) : PolyNZ (sub f g).poly :=
  reduceP_nz _ _

theorem add_nzP (f g : TateAlgebraElement) : PolyNZ (add f g).poly :=
  reduceP_nz _ _

theorem sub_lenP (n : ℕ) (f g : TateAlgebraElement)
    (hf : PolyLen n f.poly) (hg : PolyLen n g.poly) :
    PolyLen n (sub f g).poly :=
  reduceP_len _ _ _ (subP_len _ _ _ hf hg)

theorem add_lenP (n : ℕ) (f g : TateAlgebraElement)
    (hf : PolyLen n f.poly) (hg : PolyLen n g.poly) :
    PolyLen n (add f g).poly :=
  reduceP_len _ _ _ (addP_len _ _ _ hf hg)

theorem ofTerm_prec (t : TateAlgebraTerm) : (ofTerm t).prec = ⊤ := rfl

theorem ofTerm_pCoeff (t : TateAlgebraTerm) (e : Expv) :
    pCoeff (ofTerm t).poly e = if e = t.exponent then t.coeff else 0 := by
  show pCoeff (insT t.exponent t.coeff []) e = _
  rw [insT_pCoeff t.exponent t.coeff [] List.Pairwise.nil e, pCoeff, zero_add]

theorem ofTerm_keySum (t : TateAlgebraTerm) (e : Expv) :
    keySum (ofTerm t).poly e = if t.exponent = e then t.coeff else 0 :=
  keySum_insT_nil t.exponent t.coeff e

theorem mem_ofTerm (t : TateAlgebraTerm) :
    ∀ ec ∈ (ofTerm t).poly, ec.1 = t.exponent ∧ ec.2 = t.coeff := by
  intro ec hec
  show ec.1 = t.exponent ∧ ec.2 = t.coeff
  have h2 : ec ∈ insT t.exponent t.coeff [] := hec
  rw [insT] at h2
  by_cases hc : t.coeff = 0
  · rw [if_pos hc] at h2
    exact absurd h2 (List.not_mem_nil _)
  · rw [if_neg hc] at h2
    rcases List.mem_singleton.1 h2 with rfl
    exact ⟨rfl, rfl⟩

theorem ofTerm_lenP (n : ℕ) (t : TateAlgebraTerm)
    (ht : t.exponent.length = n) : PolyLen n (ofTerm t).poly := by
  intro ec hec
  rw [(mem_ofTerm t ec hec).1]
  exact ht

theorem mul_prec_top (A : TateAlgebra) (f g : TateAlgebraElement)
    (hf : f.prec = ⊤) (hg : g.prec = ⊤) : (mul A f g).prec = ⊤ := by
  show min (f.prec + ((valuation A g : ℤ) : WithTop ℤ))
      (g.prec + ((valuation A f : ℤ) : WithTop ℤ)) = ⊤
  rw [hf, hg, WithTop.top_add, WithTop.top_add, min_self]

theorem mul_pCoeff_top (A : TateAlgebra) (f g : TateAlgebraElement)
    (hf : f.prec = ⊤) (hg : g.prec = ⊤) (e : Expv) :
    pCoeff (mul A f g).poly e = convC f.poly g.poly e := by
  show pCoeff (reduceP (min (f.prec + ((valuation A g : ℤ) : WithTop ℤ))
      (g.prec + ((valuation A f : ℤ) : WithTop ℤ))) (mulP f.poly g.poly)) e = _
  rw [hf, hg, WithTop.top_add, WithTop.top_add, min_self,
    reduceP_pCoeff _ _ (mulP_sorted _ _), mulP_pCoeff, truncQ_top]

theorem mul_sorted (A : TateAlgebra) (f g : TateAlgebraElement) :
    SortedKeys (mul A f g).poly :=
  reduceP_sorted _ _ (mulP_sorted _ _)

theorem mul_nzP (A : TateAlgebra) (f g : TateAlgebraElement) :
    PolyNZ (mul A f g).poly :=
  reduceP_nz _ _

theorem mul_lenP (n : ℕ) (A : TateAlgebra) (f g : TateAlgebraElement)
    (hf : PolyLen n f.poly) (hg : PolyLen n g.poly) :
    PolyLen n (mul A f g).poly :=
  reduceP_len _ _ _ (mulP_len _ _ _ hf hg)

end TateAlgebraElement

/-- Truncating the left factor of a convolution moves every coefficient
by at least the truncation precision plus a lower bound on the right
factor's coefficient valuations. -/
theorem convC_reduceP_bound (N β : WithTop ℤ) (q : Poly)
    (hq : ∀ ec ∈ q, β ≤ qvalT ec.2) (e : Expv) :
    ∀ (p : Poly),
      N + β ≤ qvalT (convC (reduceP N p) q e - convC p q e) := by
  intro p
  induction p with
  | nil =>
    show N + β ≤ qvalT (convC [] q e - convC [] q e)
    rw [convC_nil, sub_zero, qvalT_zero]
    exact le_top
  | cons ec rest ih =>
    have hK : β ≤ qvalT (keySum (mulTermP ec.1 1 q) e) :=
      keySum_val_ge β _ (mulTermP_val_ge β ec.1 q hq) e
    have hterm : N + β ≤
        qvalT ((truncQ N ec.2 - ec.2) * keySum (mulTermP ec.1 1 q) e) := by
      rw [qvalT_mul]
      refine add_le_add ?_ hK
      have h2 : truncQ N ec.2 - ec.2 = -(ec.2 - truncQ N ec.2) := by ring
      rw [h2, qvalT_neg]
      exact truncQ_err N ec.2
    rw [reduceP, List.foldr_cons, ← reduceP]
    by_cases hc : truncQ N ec.2 = 0
    · rw [if_pos hc, convC_cons]
      have hstep : convC (reduceP N rest) q e -
          (keySum (mulTermP ec.1 ec.2 q) e + convC rest q e) =
          (convC (reduceP N rest) q e - convC rest q e) +
            (truncQ N ec.2 - ec.2) * keySum (mulTermP ec.1 1 q) e := by
        rw [hc, keySum_smul ec.1 ec.2 q e]
        ring
      rw [hstep]
      exact le_trans (le_min ih hterm) (qvalT_add _ _)
    · rw [if_neg hc, convC_cons, convC_cons]
      have hstep : keySum (mulTermP ec.1 (truncQ N ec.2) q) e +
          convC (reduceP N rest) q e -
          (keySum (mulTermP ec.1 ec.2 q) e + convC rest q e) =
          (convC (reduceP N rest) q e - convC rest q e) +
            (truncQ N ec.2 - ec.2) * keySum (mulTermP ec.1 1 q) e := by
        rw [keySum_smul ec.1 ec.2 q e, keySum_smul ec.1 (truncQ N ec.2) q e]
        ring
      rw [hstep]
      exact le_trans (le_min ih hterm) (qvalT_add _ _)

/-- A coefficient placed at exponent `e` stands strictly below the term
`lt` in the term order (vacuously for the zero coefficient). -/
def termLtC (A : TateAlgebra) (lt : TateAlgebraTerm) (c : ℚ) (e : Expv) :
    Prop :=
  c ≠ 0 → TateAlgebraTerm.cmp A (⟨c, e⟩ : TateAlgebraTerm) lt = .lt

theorem termLtC_zero (A : TateAlgebra) (lt : TateAlgebraTerm) (e : Expv) :
    termLtC A lt 0 e := fun h => absurd rfl h

theorem termLtC_congr (A : TateAlgebra) (lt : TateAlgebraTerm) (c c' : ℚ)
    (e : Expv) (hc0 : c ≠ 0) (h : qval c = qval c')
    (hc : termLtC A lt c e) : termLtC A lt c' e := by
  intro h0
  rw [← TateAlgebraTerm.cmp_congr_left A c c' e lt h]
  exact hc hc0

theorem termLtC_truncQ (A : TateAlgebra) (lt : TateAlgebraTerm)
    (N : WithTop ℤ) (c : ℚ) (e : Expv) (hc : termLtC A lt c e) :
    termLtC A lt (truncQ N c) e := by
  intro h0
  have hc0 : c ≠ 0 := by
    intro hcon
    rw [hcon, truncQ_zero] at h0
    exact h0 rfl
  exact termLtC_congr A lt c (truncQ N c) e hc0
    (qval_truncQ N c h0).symm hc h0

theorem termLtC_neg (A : TateAlgebra) (lt : TateAlgebraTerm) (b : ℚ)
    (e : Expv) (hb : termLtC A lt b e) : termLtC A lt (-b) e := by
  intro h0
  have hb0 : b ≠ 0 := by
    intro hcon
    rw [hcon, neg_zero] at h0
    exact h0 rfl
  exact termLtC_congr A lt b (-b) e hb0 (qval_neg b hb0).symm hb h0

theorem termLtC_add (A : TateAlgebra) (lt : TateAlgebraTerm) (a b : ℚ)
    (e : Expv) (ha : termLtC A lt a e) (hb : termLtC A lt b e) :
    termLtC A lt (a + b) e := by
  intro hab
  by_cases ha0 : a = 0
  · rw [ha0, zero_add] at hab ⊢
    exact hb hab
  by_cases hb0 : b = 0
  · rw [hb0, add_zero] at hab ⊢
    exact ha hab
  have hA := ha ha0
  have hB := hb hb0
  have hmin := qval_add_ge a b hab ha0 hb0
  rw [TateAlgebraTerm.cmp_lt_iff] at hA hB ⊢
  simp only [TateAlgebraTerm.valuation] at hA hB ⊢
  rcases hA with h1 | ⟨h1, h2⟩ <;> rcases hB with h3 | ⟨h3, h4⟩
  · exact Or.inl (by omega)
  · by_cases h6 : qval (a + b) - wdeg A.log_radii e =
        qval lt.coeff - wdeg A.log_radii lt.exponent
    · exact Or.inr ⟨h6, h4⟩
    · exact Or.inl (by omega)
  · by_cases h6 : qval (a + b) - wdeg A.log_radii e =
        qval lt.coeff - wdeg A.log_radii lt.exponent
    · exact Or.inr ⟨h6, h2⟩
    · exact Or.inl (by omega)
  · by_cases h6 : qval (a + b) - wdeg A.log_radii e =
        qval lt.coeff - wdeg A.log_radii lt.exponent
    · exact Or.inr ⟨h6, h2⟩
    · exact Or.inl (by omega)

theorem termLtC_sub (A : TateAlgebra) (lt : TateAlgebraTerm) (a b : ℚ)
    (e : Expv) (ha : termLtC A lt a e) (hb : termLtC A lt b e) :
    termLtC A lt (a - b) e := by
  rw [sub_eq_add_neg]
  exact termLtC_add A lt a (-b) e ha (termLtC_neg A lt b e hb)

namespace TateAlgebraElement

theorem valuation_eval (A : TateAlgebra) (g : TateAlgebraElement)
    (ltg : TateAlgebraTerm) (h : leading_term A g = some ltg) :
    valuation A g = min (TateAlgebraTerm.valuation A ltg) A.cap := by
  have hz : ¬ g.is_zero = true := by
    intro hz
    rw [leading_term, if_pos hz] at h
    exact Option.noConfusion h
  rw [valuation, if_neg hz, h]

/-- Every stored coefficient of `g` has valuation at least the element
valuation of `g` (over an algebra with zero log-radii). -/
theorem coeff_val_ge (A : TateAlgebra) (g : TateAlgebraElement)
    (ltg : TateAlgebraTerm) (hlr : ∀ x ∈ A.log_radii, x = 0)
    (hgnz : PolyNZ g.poly) (h : leading_term A g = some ltg) :
    ∀ ec ∈ g.poly, ((valuation A g : ℤ) : WithTop ℤ) ≤ qvalT ec.2 := by
  intro ec hec
  have hng := (leading_term_spec A g ltg h).2 ec hec
  have hval := TateAlgebraTerm.cmp_ne_gt_val A _ ltg hng
  have hw : TateAlgebraTerm.valuation A
      (⟨ec.2, ec.1⟩ : TateAlgebraTerm) = qval ec.2 := by
    rw [TateAlgebraTerm.valuation, wdeg_zero A.log_radii hlr]
    ring
  rw [hw] at hval
  rw [valuation_eval A g ltg h, qvalT_ne_zero _ (hgnz ec hec),
    WithTop.coe_le_coe]
  omega

end TateAlgebraElement

theorem cmp_lt_same_exp (A : TateAlgebra) (a b : ℚ) (e : Expv)
    (h : TateAlgebraTerm.cmp A (⟨a, e⟩ : TateAlgebraTerm)
      (⟨b, e⟩ : TateAlgebraTerm) = .lt) : qval b < qval a := by
  rw [TateAlgebraTerm.cmp_lt_iff] at h
  simp only [TateAlgebraTerm.valuation] at h
  rcases h with h | ⟨_, h2⟩
  · omega
  · rw [lexCmp_self] at h2
    exact absurd h2 (by intro hcon; exact Ordering.noConfusion hcon)

namespace TateAlgebraElement

theorem ofTerm_sorted (t : TateAlgebraTerm) : SortedKeys (ofTerm t).poly :=
  insT_sorted _ _ [] List.Pairwise.nil

theorem add_ofTerm_pCoeff (f : TateAlgebraElement) (t : TateAlgebraTerm)
    (hf : SortedKeys f.poly) (e : Expv) :
    pCoeff (add f (ofTerm t)).poly e =
      truncQ f.prec (pCoeff f.poly e +
        (if e = t.exponent then t.coeff else 0)) := by
  rw [add_pCoeff f (ofTerm t) hf e, ofTerm_prec, min_eq_left le_top,
    ofTerm_keySum]
  congr 1
  by_cases he : e = t.exponent
  · rw [if_pos he, if_pos he.symm]
  · rw [if_neg he, if_neg (fun hcon => he hcon.symm)]

theorem sub_ofTerm_pCoeff (f : TateAlgebraElement) (t : TateAlgebraTerm)
    (hf : SortedKeys f.poly) (e : Expv) :
    pCoeff (sub f (ofTerm t)).poly e =
      truncQ f.prec (pCoeff f.poly e -
        (if e = t.exponent then t.coeff else 0)) := by
  rw [sub_pCoeff f (ofTerm t) hf (ofTerm_sorted t) e, ofTerm_prec,
    min_eq_left le_top, ofTerm_pCoeff]

/-- The invariant carried by the division loop, for a single divisor
`g` with leading term `ltg` and original dividend `forig`: well-formed
canonical mappings, the fixed precisions, the division identity
`forig ≈ q0·g + rc + fc` at the working precision, non-divisibility of
the partial remainder's terms, and strict domination of the remainder
terms over the still-unprocessed terms. -/
def LoopInv (A : TateAlgebra) (g : TateAlgebraElement)
    (ltg : TateAlgebraTerm) (forig : TateAlgebraElement)
    (fc q0 rc : TateAlgebraElement) : Prop :=
  SortedKeys fc.poly ∧ PolyNZ fc.poly ∧ PolyLen A.ngens fc.poly ∧
  SortedKeys q0.poly ∧ PolyLen A.ngens q0.poly ∧
  SortedKeys rc.poly ∧ PolyNZ rc.poly ∧ PolyLen A.ngens rc.poly ∧
  fc.prec = min forig.prec ((A.cap : ℤ) : WithTop ℤ) ∧
  q0.prec = ((A.cap - valuation A g : ℤ) : WithTop ℤ) ∧
  rc.prec = ((A.cap : ℤ) : WithTop ℤ) ∧
  (∀ e, min forig.prec ((A.cap : ℤ) : WithTop ℤ) ≤
    qvalT (pCoeff forig.poly e -
      (convC q0.poly g.poly e + pCoeff rc.poly e + pCoeff fc.poly e))) ∧
  (∀ ec ∈ rc.poly,
    TateAlgebraTerm.is_divisible_by A (⟨ec.2, ec.1⟩ : TateAlgebraTerm)
      ltg false = false) ∧
  (∀ ec ∈ rc.poly, ∀ ec' ∈ fc.poly,
    TateAlgebraTerm.cmp A (⟨ec'.2, ec'.1⟩ : TateAlgebraTerm)
      (⟨ec.2, ec.1⟩ : TateAlgebraTerm) = .lt)

end TateAlgebraElement

namespace TateAlgebraElement

/-- One step of the division loop in the remainder branch (the leading
term is not divisible): the invariant is preserved. -/
theorem stepRem (A : TateAlgebra) (g : TateAlgebraElement)
    (ltg : TateAlgebraTerm) (forig : TateAlgebraElement)
    (fc q0 rc : TateAlgebraElement) (lt : TateAlgebraTerm)
    (hinv : LoopInv A g ltg forig fc q0 rc)
    (hlt : leading_term A fc = some lt)
    (hnd0 : TateAlgebraTerm.is_divisible_by A lt ltg false = false) :
    LoopInv A g ltg forig (sub fc (ofTerm lt)) q0 (add rc (ofTerm lt)) := by
  obtain ⟨hfs, hfnz, hflen, hqs, hqlen, hrs, hrnz, hrlen, hfp, hqp, hrp,
    hid, hndI, hrel⟩ := hinv
  obtain ⟨hltmem, hltc⟩ := leading_term_pCoeff A fc lt hfs hlt
  have hstrict := leading_term_strict A fc lt hfs hlt
  have hltc0 : lt.coeff ≠ 0 := hfnz (lt.exponent, lt.coeff) hltmem
  have hltlen : lt.exponent.length = A.ngens :=
    hflen (lt.exponent, lt.coeff) hltmem
  have hfe : ∀ e, pCoeff (sub fc (ofTerm lt)).poly e =
      truncQ fc.prec (pCoeff fc.poly e -
        (if e = lt.exponent then lt.coeff else 0)) :=
    fun e => sub_ofTerm_pCoeff fc lt hfs e
  have hre : ∀ e, pCoeff (add rc (ofTerm lt)).poly e =
      truncQ rc.prec (pCoeff rc.poly e +
        (if e = lt.exponent then lt.coeff else 0)) :=
    fun e => add_ofTerm_pCoeff rc lt hrs e
  have hbelowf : ∀ e, termLtC A lt (pCoeff (sub fc (ofTerm lt)).poly e) e := by
    intro e
    rw [hfe e]
    apply termLtC_truncQ
    by_cases he : e = lt.exponent
    · rw [if_pos he, he, hltc, sub_self]
      exact termLtC_zero A lt lt.exponent
    · rw [if_neg he, sub_zero]
      by_cases hc : pCoeff fc.poly e = 0
      · rw [hc]
        exact termLtC_zero A lt e
      · intro hnz
        exact hstrict (e, pCoeff fc.poly e) (pCoeff_mem fc.poly e hc) he
  have hfc'entries : ∀ ec' ∈ (sub fc (ofTerm lt)).poly,
      TateAlgebraTerm.cmp A (⟨ec'.2, ec'.1⟩ : TateAlgebraTerm) lt = .lt := by
    intro ec' hec'
    have h1 : pCoeff (sub fc (ofTerm lt)).poly ec'.1 = ec'.2 :=
      pCoeff_of_mem _ (sub_sorted fc (ofTerm lt) hfs) ec'.1 ec'.2 hec'
    have hnz : ec'.2 ≠ 0 := sub_nzP fc (ofTerm lt) ec' hec'
    have h2 := hbelowf ec'.1
    rw [h1] at h2
    exact h2 hnz
  have hrc'entries : ∀ ec ∈ (add rc (ofTerm lt)).poly,
      (∃ cold, (ec.1, cold) ∈ rc.poly ∧ qval ec.2 = qval cold) ∨
        (ec.1 = lt.exponent ∧ qval ec.2 = qval lt.coeff) := by
    intro ec hec
    have h1 : pCoeff (add rc (ofTerm lt)).poly ec.1 = ec.2 :=
      pCoeff_of_mem _ (add_sorted rc (ofTerm lt) hrs) ec.1 ec.2 hec
    have hnz : ec.2 ≠ 0 := add_nzP rc (ofTerm lt) ec hec
    rw [hre ec.1] at h1
    by_cases he : ec.1 = lt.exponent
    · rw [if_pos he] at h1
      by_cases hc : pCoeff rc.poly ec.1 = 0
      · rw [hc, zero_add] at h1
        refine Or.inr ⟨he, ?_⟩
        rw [← h1]
        exact qval_truncQ _ _ (by rw [h1]; exact hnz)
      · have hmemold : (ec.1, pCoeff rc.poly ec.1) ∈ rc.poly :=
          pCoeff_mem _ _ hc
        have hcl := hrel (ec.1, pCoeff rc.poly ec.1) hmemold
          (lt.exponent, lt.coeff) hltmem
        rw [he] at hcl h1 hc hmemold
        have hlt2 : qval (pCoeff rc.poly lt.exponent) < qval lt.coeff :=
          cmp_lt_same_exp A lt.coeff (pCoeff rc.poly lt.exponent)
            lt.exponent hcl
        have hq2 : qval (pCoeff rc.poly lt.exponent + lt.coeff) =
            qval (pCoeff rc.poly lt.exponent) :=
          qval_add_eq _ _ hc hlt2
        refine Or.inl ⟨pCoeff rc.poly lt.exponent, ?_, ?_⟩
        · rw [he]
          exact hmemold
        · rw [← h1, qval_truncQ _ _ (by rw [h1]; exact hnz), hq2]
    · rw [if_neg he, add_zero] at h1
      have hc : pCoeff rc.poly ec.1 ≠ 0 := by
        intro hcon
        rw [hcon, truncQ_zero] at h1
        exact hnz h1.symm
      refine Or.inl ⟨pCoeff rc.poly ec.1, pCoeff_mem _ _ hc, ?_⟩
      rw [← h1, qval_truncQ _ _ (by rw [h1]; exact hnz)]
  refine ⟨sub_sorted fc (ofTerm lt) hfs, sub_nzP _ _,
    sub_lenP _ _ _ hflen (ofTerm_lenP _ lt hltlen),
    hqs, hqlen,
    add_sorted rc (ofTerm lt) hrs, add_nzP _ _,
    add_lenP _ _ _ hrlen (ofTerm_lenP _ lt hltlen),
    ?_, hqp, ?_, ?_, ?_, ?_⟩
  · rw [sub_prec, ofTerm_prec, min_eq_left le_top, hfp]
  · rw [add_prec, ofTerm_prec, min_eq_left le_top, hrp]
  · intro e
    have hsplit : pCoeff forig.poly e -
        (convC q0.poly g.poly e + pCoeff (add rc (ofTerm lt)).poly e +
          pCoeff (sub fc (ofTerm lt)).poly e) =
        (pCoeff forig.poly e - (convC q0.poly g.poly e + pCoeff rc.poly e +
          pCoeff fc.poly e)) +
        ((pCoeff rc.poly e + (if e = lt.exponent then lt.coeff else 0)) -
          truncQ rc.prec
            (pCoeff rc.poly e + (if e = lt.exponent then lt.coeff else 0))) +
        ((pCoeff fc.poly e - (if e = lt.exponent then lt.coeff else 0)) -
          truncQ fc.prec
            (pCoeff fc.poly e -
              (if e = lt.exponent then lt.coeff else 0))) := by
      rw [hre e, hfe e]
      ring
    rw [hsplit]
    refine le_trans
      (le_min (le_trans (le_min (hid e) ?_) (qvalT_add _ _)) ?_)
      (qvalT_add _ _)
    · rw [hrp]
      exact le_trans (min_le_right _ _) (truncQ_err _ _)
    · rw [hfp]
      exact truncQ_err _ _
  · intro ec hec
    rcases hrc'entries ec hec with ⟨cold, hmem, hq⟩ | ⟨he, hq⟩
    · rw [TateAlgebraTerm.is_divisible_by_congr A ec.2 cold ec.1 ltg false hq]
      exact hndI (ec.1, cold) hmem
    · rw [he,
        TateAlgebraTerm.is_divisible_by_congr A ec.2 lt.coeff lt.exponent
          ltg false hq]
      exact hnd0
  · intro ec hec ec' hec'
    have hf' := hfc'entries ec' hec'
    rcases hrc'entries ec hec with ⟨cold, hmem, hq⟩ | ⟨he, hq⟩
    · have hl2 := hrel (ec.1, cold) hmem (lt.exponent, lt.coeff) hltmem
      have htrans := TateAlgebraTerm.cmp_lt_trans A _ _ _ hf' hl2
      rw [TateAlgebraTerm.cmp_congr_right A ec.2 cold ec.1 _ hq]
      exact htrans
    · rw [he, TateAlgebraTerm.cmp_congr_right A ec.2 lt.coeff lt.exponent _ hq]
      exact hf'

end TateAlgebraElement

theorem compare_neg_add (a x y : ℤ) :
    compare (-(a + x)) (-(a + y)) = compare (-x) (-y) := by
  rcases lt_trichotomy x y with h | h | h
  · rw [compare_gt_iff_gt.2 (by omega : -(a + x) > -(a + y))]
    rw [compare_gt_iff_gt.2 (by omega : -x > -y)]
  · rw [h, compare_eq_iff_eq.2 rfl, compare_eq_iff_eq.2 rfl]
  · rw [compare_lt_iff_lt.2 (by omega : -(a + x) < -(a + y))]
    rw [compare_lt_iff_lt.2 (by omega : -x < -y)]

/-- Multiplying two terms by the same nonzero term preserves their
comparison (zero log-radii). -/
theorem cmp_shift (A : TateAlgebra) (hlr : ∀ x ∈ A.log_radii, x = 0)
    (n : ℕ) (e0 : Expv) (he0 : e0.length = n) (c0 : ℚ) (hc0 : c0 ≠ 0)
    (c1 c2 : ℚ) (hc1 : c1 ≠ 0) (hc2 : c2 ≠ 0)
    (e1 e2 : Expv) (he1 : e1.length = n) (he2 : e2.length = n) :
    TateAlgebraTerm.cmp A (⟨c0 * c1, eadd e0 e1⟩ : TateAlgebraTerm)
        (⟨c0 * c2, eadd e0 e2⟩ : TateAlgebraTerm) =
      TateAlgebraTerm.cmp A (⟨c1, e1⟩ : TateAlgebraTerm)
        (⟨c2, e2⟩ : TateAlgebraTerm) := by
  rw [TateAlgebraTerm.cmp, TateAlgebraTerm.cmp]
  simp only [TateAlgebraTerm.valuation]
  rw [wdeg_zero _ hlr, wdeg_zero _ hlr, wdeg_zero _ hlr, wdeg_zero _ hlr]
  rw [qval_mul c0 c1 hc0 hc1, qval_mul c0 c2 hc0 hc2]
  rw [lexCmp_eadd e0 e1 e2 (he1.trans he0.symm) (he2.trans he0.symm)]
  congr 1
  simp only [sub_zero]
  exact compare_neg_add (qval c0) (qval c1) (qval c2)

namespace TateAlgebraElement

/-- One step of the division loop in the divisor branch (the leading
term is divisible by the divisor's leading term): the invariant is
preserved. -/
theorem stepDiv (A : TateAlgebra) (g : TateAlgebraElement)
    (ltg : TateAlgebraTerm) (forig : TateAlgebraElement)
    (hlr : ∀ x ∈ A.log_radii, x = 0)
    (hgs : SortedKeys g.poly) (hgnz : PolyNZ g.poly)
    (hglen : PolyLen A.ngens g.poly) (hgprec : g.prec = ⊤)
    (hltg : leading_term A g = some ltg)
    (fc q0 rc : TateAlgebraElement) (lt : TateAlgebraTerm)
    (hinv : LoopInv A g ltg forig fc q0 rc)
    (hlt : leading_term A fc = some lt)
    (hdiv : TateAlgebraTerm.is_divisible_by A lt ltg false = true) :
    LoopInv A g ltg forig
      (sub fc (mul A (ofTerm (TateAlgebraTerm.quot lt ltg)) g))
      (add q0 (ofTerm (TateAlgebraTerm.quot lt ltg))) rc := by
  obtain ⟨hfs, hfnz, hflen, hqs, hqlen, hrs, hrnz, hrlen, hfp, hqp, hrp,
    hid, hndI, hrel⟩ := hinv
  obtain ⟨hltmem, hltc⟩ := leading_term_pCoeff A fc lt hfs hlt
  have hstrict := leading_term_strict A fc lt hfs hlt
  have hltc0 : lt.coeff ≠ 0 := hfnz (lt.exponent, lt.coeff) hltmem
  have hltlen : lt.exponent.length = A.ngens :=
    hflen (lt.exponent, lt.coeff) hltmem
  obtain ⟨hltgmem, hltgc⟩ := leading_term_pCoeff A g ltg hgs hltg
  have hgstrict := leading_term_strict A g ltg hgs hltg
  have hltgc0 : ltg.coeff ≠ 0 := hgnz (ltg.exponent, ltg.coeff) hltgmem
  have hltglen : ltg.exponent.length = A.ngens :=
    hglen (ltg.exponent, ltg.coeff) hltgmem
  have hge : TateAlgebraTerm.expGe lt.exponent ltg.exponent = true := by
    rw [TateAlgebraTerm.is_divisible_by] at hdiv
    by_cases hguard : ((false || !A.is_field) &&
        decide (TateAlgebraTerm.valuation A lt <
          TateAlgebraTerm.valuation A ltg)) = true
    · rw [if_pos hguard] at hdiv
      exact absurd hdiv (by simp)
    · rw [if_neg hguard] at hdiv
      exact hdiv
  have he0len : (esub lt.exponent ltg.exponent).length = A.ngens := by
    rw [esub_length, hltlen, hltglen, min_self]
  have hcancel : eadd (esub lt.exponent ltg.exponent) ltg.exponent =
      lt.exponent :=
    esub_eadd_cancel lt.exponent ltg.exponent
      (hltlen.trans hltglen.symm) hge
  have hc00 : lt.coeff / ltg.coeff ≠ 0 := div_ne_zero hltc0 hltgc0
  have hc0cg : lt.coeff / ltg.coeff * ltg.coeff = lt.coeff :=
    div_mul_cancel₀ lt.coeff hltgc0
  have hprodc : ∀ e,
      pCoeff (mul A (ofTerm (TateAlgebraTerm.quot lt ltg)) g).poly e =
        (lt.coeff / ltg.coeff) *
          keySum (mulTermP (esub lt.exponent ltg.exponent) 1 g.poly) e := by
    intro e
    rw [mul_pCoeff_top A _ g (ofTerm_prec _) hgprec e]
    show convC (insT (esub lt.exponent ltg.exponent)
      (lt.coeff / ltg.coeff) []) g.poly e = _
    rw [convC_insT, convC_nil, zero_add]
  have hfe : ∀ e,
      pCoeff (sub fc (mul A (ofTerm (TateAlgebraTerm.quot lt ltg)) g)).poly
          e =
        truncQ fc.prec (pCoeff fc.poly e -
          (lt.coeff / ltg.coeff) *
            keySum (mulTermP (esub lt.exponent ltg.exponent) 1 g.poly) e) := by
    intro e
    rw [sub_pCoeff fc _ hfs (mul_sorted A _ g) e,
      mul_prec_top A _ g (ofTerm_prec _) hgprec, min_eq_left le_top,
      hprodc e]
  have hKlt : keySum (mulTermP (esub lt.exponent ltg.exponent) 1 g.poly)
      lt.exponent = ltg.coeff := by
    have h1 := keySum_mulTermP_hit A.ngens g.poly hgs hglen
      (esub lt.exponent ltg.exponent) he0len ltg.exponent ltg.coeff hltgmem
    rw [hcancel] at h1
    exact h1
  have hbelowf : ∀ e, termLtC A lt
      (pCoeff (sub fc (mul A (ofTerm (TateAlgebraTerm.quot lt ltg)) g)).poly
        e) e := by
    intro e
    rw [hfe e]
    apply termLtC_truncQ
    by_cases he : e = lt.exponent
    · rw [he, hKlt, hltc, hc0cg, sub_self]
      exact termLtC_zero A lt lt.exponent
    · refine termLtC_sub A lt _ _ e ?_ ?_
      · by_cases hc : pCoeff fc.poly e = 0
        · rw [hc]
          exact termLtC_zero A lt e
        · intro hnz
          exact hstrict (e, pCoeff fc.poly e) (pCoeff_mem fc.poly e hc) he
      · rcases keySum_mulTermP_cases A.ngens g.poly hgs hglen
          (esub lt.exponent ltg.exponent) he0len e with hK0 | ⟨ec, hec, hmatch, hKv⟩
        · rw [hK0, mul_zero]
          exact termLtC_zero A lt e
        · rw [hKv]
          intro hnz
          have hc1 : ec.2 ≠ 0 := hgnz ec hec
          have hne : ec.1 ≠ ltg.exponent := by
            intro hcon
            apply he
            rw [← hmatch, hcon, hcancel]
          have h5 := hgstrict ec hec hne
          have hshift := cmp_shift A hlr A.ngens
            (esub lt.exponent ltg.exponent) he0len
            (lt.coeff / ltg.coeff) hc00 ec.2 ltg.coeff hc1 hltgc0
            ec.1 ltg.exponent (hglen ec hec) hltglen
          rw [hcancel, hc0cg] at hshift
          rw [← hmatch]
          exact hshift.trans h5
  have hfc'entries : ∀ ec' ∈
      (sub fc (mul A (ofTerm (TateAlgebraTerm.quot lt ltg)) g)).poly,
      TateAlgebraTerm.cmp A (⟨ec'.2, ec'.1⟩ : TateAlgebraTerm) lt = .lt := by
    intro ec' hec'
    have h1 : pCoeff
        (sub fc (mul A (ofTerm (TateAlgebraTerm.quot lt ltg)) g)).poly
          ec'.1 = ec'.2 :=
      pCoeff_of_mem _ (sub_sorted fc _ hfs) ec'.1 ec'.2 hec'
    have hnz : ec'.2 ≠ 0 := sub_nzP fc _ ec' hec'
    have h2 := hbelowf ec'.1
    rw [h1] at h2
    exact h2 hnz
  have hq0poly : (add q0 (ofTerm (TateAlgebraTerm.quot lt ltg))).poly =
      reduceP q0.prec (insT (esub lt.exponent ltg.exponent)
        (lt.coeff / ltg.coeff) q0.poly) := by
    show reduceP (min q0.prec (⊤ : WithTop ℤ))
      (addP q0.poly (insT (esub lt.exponent ltg.exponent)
        (lt.coeff / ltg.coeff) [])) = _
    rw [min_eq_left le_top, insT, if_neg hc00, addP_single]
  have hβ := coeff_val_ge A g ltg hlr hgnz hltg
  have hqerr : ∀ e, ((A.cap : ℤ) : WithTop ℤ) ≤
      qvalT (convC (add q0 (ofTerm (TateAlgebraTerm.quot lt ltg))).poly
          g.poly e -
        (convC q0.poly g.poly e + (lt.coeff / ltg.coeff) *
          keySum (mulTermP (esub lt.exponent ltg.exponent) 1 g.poly) e)) := by
    intro e
    rw [hq0poly]
    have h1 := convC_reduceP_bound q0.prec
      ((valuation A g : ℤ) : WithTop ℤ) g.poly hβ e
      (insT (esub lt.exponent ltg.exponent) (lt.coeff / ltg.coeff) q0.poly)
    rw [convC_insT] at h1
    have h2 : q0.prec + ((valuation A g : ℤ) : WithTop ℤ) =
        ((A.cap : ℤ) : WithTop ℤ) := by
      rw [hqp, ← WithTop.coe_add]
      congr 1
      ring
    rw [h2] at h1
    exact h1
  refine ⟨sub_sorted fc _ hfs, sub_nzP _ _,
    sub_lenP _ _ _ hflen (mul_lenP _ A _ g
      (ofTerm_lenP _ _ (by
        show (esub lt.exponent ltg.exponent).length = A.ngens
        exact he0len)) hglen),
    add_sorted q0 _ hqs,
    add_lenP _ _ _ hqlen (ofTerm_lenP _ _ (by
      show (esub lt.exponent ltg.exponent).length = A.ngens
      exact he0len)),
    hrs, hrnz, hrlen,
    ?_, ?_, hrp, ?_, hndI, ?_⟩
  · rw [sub_prec, mul_prec_top A _ g (ofTerm_prec _) hgprec,
      min_eq_left le_top, hfp]
  · rw [add_prec, ofTerm_prec, min_eq_left le_top, hqp]
  · intro e
    have hsplit : pCoeff forig.poly e -
        (convC (add q0 (ofTerm (TateAlgebraTerm.quot lt ltg))).poly
            g.poly e +
          pCoeff rc.poly e +
          pCoeff (sub fc
            (mul A (ofTerm (TateAlgebraTerm.quot lt ltg)) g)).poly e) =
        (pCoeff forig.poly e - (convC q0.poly g.poly e + pCoeff rc.poly e +
          pCoeff fc.poly e)) +
        (-(convC (add q0 (ofTerm (TateAlgebraTerm.quot lt ltg))).poly
            g.poly e -
          (convC q0.poly g.poly e + (lt.coeff / ltg.coeff) *
            keySum (mulTermP (esub lt.exponent ltg.exponent) 1 g.poly) e))) +
        ((pCoeff fc.poly e - (lt.coeff / ltg.coeff) *
            keySum (mulTermP (esub lt.exponent ltg.exponent) 1 g.poly) e) -
          truncQ fc.prec (pCoeff fc.poly e - (lt.coeff / ltg.coeff) *
            keySum (mulTermP (esub lt.exponent ltg.exponent) 1 g.poly) e)) := by
      rw [hfe e]
      ring
    rw [hsplit]
    refine le_trans
      (le_min (le_trans (le_min (hid e) ?_) (qvalT_add _ _)) ?_)
      (qvalT_add _ _)
    · rw [qvalT_neg]
      exact le_trans (min_le_right _ _) (hqerr e)
    · rw [hfp]
      exact truncQ_err _ _
  · intro ec hec ec' hec'
    have hf' := hfc'entries ec' hec'
    have hl2 := hrel ec hec (lt.exponent, lt.coeff) hltmem
    exact TateAlgebraTerm.cmp_lt_trans A _ _ _ hf' hl2

end TateAlgebraElement

namespace TateAlgebraElement

/-- At loop exit (zero running dividend) the invariant yields the
division identity and the remainder's non-divisibility. -/
theorem loopInv_exit (A : TateAlgebra) (g : TateAlgebraElement)
    (ltg : TateAlgebraTerm) (forig : TateAlgebraElement)
    (fc q0 rc : TateAlgebraElement)
    (hinv : LoopInv A g ltg forig fc q0 rc) (hz : fc.is_zero = true) :
    SortedKeys q0.poly ∧ SortedKeys rc.poly ∧
      (∀ e, min forig.prec ((A.cap : ℤ) : WithTop ℤ) ≤
        qvalT (pCoeff forig.poly e -
          (convC q0.poly g.poly e + pCoeff rc.poly e))) ∧
      (∀ ec ∈ rc.poly,
        TateAlgebraTerm.is_divisible_by A (⟨ec.2, ec.1⟩ : TateAlgebraTerm)
          ltg false = false) := by
  obtain ⟨hfs, hfnz, hflen, hqs, hqlen, hrs, hrnz, hrlen, hfp, hqp, hrp,
    hid, hndI, hrel⟩ := hinv
  have hzp : fc.poly = [] := by
    rw [is_zero] at hz
    exact List.isEmpty_iff.1 hz
  refine ⟨hqs, hrs, ?_, hndI⟩
  intro e
  have h1 := hid e
  rw [hzp] at h1
  rw [show pCoeff ([] : Poly) e = 0 from rfl, add_zero] at h1
  exact h1

/-- Soundness of the division loop under the invariant: if the loop
returns, the returned pair satisfies the division identity at the
working precision and the remainder's terms are not divisible by the
divisor's leading term. -/
theorem quoRemLoop_sound (A : TateAlgebra) (g : TateAlgebraElement)
    (ltg : TateAlgebraTerm) (forig : TateAlgebraElement)
    (hlr : ∀ x ∈ A.log_radii, x = 0)
    (hgs : SortedKeys g.poly) (hgnz : PolyNZ g.poly)
    (hglen : PolyLen A.ngens g.poly) (hgprec : g.prec = ⊤)
    (hltg : leading_term A g = some ltg) :
    ∀ (fuel : ℕ) (fc q0 rc : TateAlgebraElement)
      (qs : List TateAlgebraElement) (r : TateAlgebraElement),
      LoopInv A g ltg forig fc q0 rc →
      quoRemLoop A [(g, ltg)] false fuel fc [q0] rc = some (qs, r) →
      ∃ q0f, qs = [q0f] ∧ SortedKeys q0f.poly ∧ SortedKeys r.poly ∧
        (∀ e, min forig.prec ((A.cap : ℤ) : WithTop ℤ) ≤
          qvalT (pCoeff forig.poly e -
            (convC q0f.poly g.poly e + pCoeff r.poly e))) ∧
        (∀ ec ∈ r.poly,
          TateAlgebraTerm.is_divisible_by A (⟨ec.2, ec.1⟩ : TateAlgebraTerm)
            ltg false = false) := by
  intro fuel
  induction fuel with
  | zero =>
    intro fc q0 rc qs r hinv hres
    rw [quoRemLoop] at hres
    by_cases hz : fc.is_zero = true
    · rw [if_pos hz] at hres
      injection hres with h5
      injection h5 with h6 h7
      subst h6
      subst h7
      obtain ⟨hqs', hrs', hident, hnd⟩ :=
        loopInv_exit A g ltg forig fc q0 rc hinv hz
      exact ⟨q0, rfl, hqs', hrs', hident, hnd⟩
    · rw [if_neg hz] at hres
      exact Option.noConfusion hres
  | succ fuel ih =>
    intro fc q0 rc qs r hinv hres
    rw [quoRemLoop] at hres
    by_cases hz : fc.is_zero = true
    · rw [if_pos hz] at hres
      injection hres with h5
      injection h5 with h6 h7
      subst h6
      subst h7
      obtain ⟨hqs', hrs', hident, hnd⟩ :=
        loopInv_exit A g ltg forig fc q0 rc hinv hz
      exact ⟨q0, rfl, hqs', hrs', hident, hnd⟩
    · rw [if_neg hz] at hres
      have hz' : fc.is_zero = false := by
        cases h : fc.is_zero
        · rfl
        · exact absurd h hz
      obtain ⟨lt, hlt⟩ := exists_leading_term A fc hz'
      rw [hlt] at hres
      have hres2 : (match findDivisor A false lt [(g, ltg)] [q0] with
          | some (factor, d, q') =>
            quoRemLoop A [(g, ltg)] false fuel
              (sub fc (mul A (ofTerm factor) d)) q' rc
          | none =>
            quoRemLoop A [(g, ltg)] false fuel (sub fc (ofTerm lt)) [q0]
              (add rc (ofTerm lt))) = some (qs, r) := hres
      by_cases hdiv : TateAlgebraTerm.is_divisible_by A lt ltg false = true
      · have hfd : findDivisor A false lt [(g, ltg)] [q0] =
            some (TateAlgebraTerm.quot lt ltg, g,
              [add q0 (ofTerm (TateAlgebraTerm.quot lt ltg))]) := by
          rw [findDivisor, if_pos hdiv]
        rw [hfd] at hres2
        have hres' : quoRemLoop A [(g, ltg)] false fuel
            (sub fc (mul A (ofTerm (TateAlgebraTerm.quot lt ltg)) g))
            [add q0 (ofTerm (TateAlgebraTerm.quot lt ltg))] rc =
            some (qs, r) := hres2
        exact ih _ _ _ _ _
          (stepDiv A g ltg forig hlr hgs hgnz hglen hgprec hltg
            fc q0 rc lt hinv hlt hdiv) hres'
      · have hdiv2 : TateAlgebraTerm.is_divisible_by A lt ltg false =
            false := by
          cases h : TateAlgebraTerm.is_divisible_by A lt ltg false
          · rfl
          · exact absurd h hdiv
        have hfd : findDivisor A false lt [(g, ltg)] [q0] = none := by
          rw [findDivisor, if_neg hdiv]
          rfl
        rw [hfd] at hres2
        have hres' : quoRemLoop A [(g, ltg)] false fuel
            (sub fc (ofTerm lt)) [q0] (add rc (ofTerm lt)) =
            some (qs, r) := hres2
        exact ih _ _ _ _ _
          (stepRem A g ltg forig fc q0 rc lt hinv hlt hdiv2) hres'

end TateAlgebraElement

/-! ## Spec-side comparison definitions -/

/-- The gcd of terms as the claim words it: exponent-wise min, and the
coefficient is the uniformizer raised to the min of the two **term**
valuations (the valuation of §4.1/§4.2, which subtracts the log-radius
weight of the exponent). -/
def gcdSpecClaim (A : TateAlgebra) (t u : TateAlgebraTerm) : TateAlgebraTerm :=
  ⟨two_zpow (min (TateAlgebraTerm.valuation A t) (TateAlgebraTerm.valuation A u)),
    emin t.exponent u.exponent⟩

/-! ## Concrete sample algebras and elements -/

/-- `Z2⟨x,y⟩` (non-field base), log radii 0, precision cap 10. -/
def exA : TateAlgebra := ⟨["x", "y"], [0, 0], false, 10, 1⟩

/-- `Q2⟨x⟩` (field base), log radius 0, precision cap 10. -/
def exAF : TateAlgebra := ⟨["x"], [0], true, 10, 1⟩

/-- One variable over `Z2`, log radius 1, precision cap 10. -/
def exA1 : TateAlgebra := ⟨["x"], [1], false, 10, 1⟩

/-- One variable over `Z2`, log radius 0, precision cap 10. -/
def exS5 : TateAlgebra := ⟨["x"], [0], false, 10, 1⟩

/-- The element `2` (one variable). -/
def elTwo : TateAlgebraElement := ⟨[([0], 2)], ⊤⟩

/-- The element `1` (one variable). -/
def elOneF : TateAlgebraElement := ⟨[([0], 1)], ⊤⟩

/-- The element `x^2` (two variables). -/
def elX2 : TateAlgebraElement := ⟨[([2, 0], 1)], ⊤⟩

/-- The element `x` (two variables). -/
def elX : TateAlgebraElement := ⟨[([1, 0], 1)], ⊤⟩

/-- The zero element. -/
def elZero : TateAlgebraElement := ⟨[], ⊤⟩

/-- The term `2·x` (one variable). -/
def exT1 : TateAlgebraTerm := ⟨2, [1]⟩

/-- The element `x` (one variable). -/
def elX1S : TateAlgebraElement := ⟨[([1], 1)], ⊤⟩

def exQ0 : TateAlgebraElement := ⟨[([1, 0], 1)], ((10 : ℤ) : WithTop ℤ)⟩

/-- An algebra with mixed nonzero log-radii `(-1, 1)`, cap 10. -/
def exAmix : TateAlgebra := ⟨["x", "y"], [-1, 1], false, 10, 1⟩

/-- The dividend `2^9·x·y` at infinite precision. -/
def elFxy9 : TateAlgebraElement := ⟨[([1, 1], 512)], ⊤⟩

/-- The dividend `x + 2^5·y` at infinite precision. -/
def elFy32x : TateAlgebraElement := ⟨[([0, 1], 32), ([1, 0], 1)], ⊤⟩

/-- The divisor `x` at finite precision `O(2^3)`. -/
def elXp3 : TateAlgebraElement := ⟨[([1, 0], 1)], ((3 : ℤ) : WithTop ℤ)⟩

/-- The remainder returned by the sample division: zero at precision 10. -/
def exR0 : TateAlgebraElement := ⟨[], ((10 : ℤ) : WithTop ℤ)⟩

/-! ## The claims -/

/-- **C1.**  For all elements `a`, `b` with a common ambient algebra,
the absolute precision of the product `a*b` equals
`min(prec(a) + valuation(b), prec(b) + valuation(a))`, where `prec` is
the operand's absolute precision and `valuation` the element valuation
(capped at the precision cap, equal to the cap on zero). -/
theorem mul_precision_formula (A : TateAlgebra) (f g : TateAlgebraElement) :
    (TateAlgebraElement.mul A f g).precision_absolute =
      min (f.precision_absolute +
            ((TateAlgebraElement.valuation A g : ℤ) : WithTop ℤ))
          (g.precision_absolute +
            ((TateAlgebraElement.valuation A f : ℤ) : WithTop ℤ)) := rfl

/-- **C2** (amended).  Over an algebra with zero log-radii and for an
exact (infinite-precision) nonzero divisor `g`, a returning
`quo_rem(f, [g])` produces quotients `q` and remainder `r` such that
`f == q[0]*g + r` exactly within the stated precision — every
coefficient of `f - (q[0]*g + r)` has valuation at least
`min(prec(f), cap)`, the absolute precision of the truncated dividend —
and no term of `r` is divisible by the leading term of `g`.  Both
restrictions are forced: the claim's unrestricted quantification fails
(`quo_rem_division_identity_cex`) because the quotients are seeded at
precision `cap - val(d)`, which with nonzero log-radii truncates away a
needed quotient term while `f -= factor*d` subtracts the exact product,
and because an inexact divisor collapses the running dividend's
precision mid-loop below `min(prec(f), cap)`. -/
theorem quo_rem_division_identity (A : TateAlgebra)
    (f g : TateAlgebraElement) (qs : List TateAlgebraElement)
    (r : TateAlgebraElement) (fuel : ℕ)
    (hlr : ∀ x ∈ A.log_radii, x = 0)
    (hfs : SortedKeys f.poly) (hflen : PolyLen A.ngens f.poly)
    (hgs : SortedKeys g.poly) (hgnz : PolyNZ g.poly)
    (hglen : PolyLen A.ngens g.poly) (hgprec : g.prec = ⊤)
    (hgne : g.poly ≠ [])
    (hres : TateAlgebraElement.quo_rem A f [g] false fuel = some (qs, r)) :
    ∃ q0, qs = [q0] ∧
      (∀ e, min f.prec ((A.cap : ℤ) : WithTop ℤ) ≤
        qvalT (pCoeff f.poly e -
          (pCoeff (mulP q0.poly g.poly) e + pCoeff r.poly e))) ∧
      (∀ ltg, TateAlgebraElement.leading_term A g = some ltg →
        ∀ t ∈ TateAlgebraElement.terms A r,
          TateAlgebraTerm.is_divisible_by A t ltg false = false) := by
  have hgz : g.is_zero = false := by
    cases h : g.is_zero
    · rfl
    · rw [TateAlgebraElement.is_zero] at h
      exact absurd (List.isEmpty_iff.1 h) hgne
  obtain ⟨ltg, hltg⟩ := TateAlgebraElement.exists_leading_term A g hgz
  rw [TateAlgebraElement.quo_rem] at hres
  have hseq : TateAlgebraElement.seqLT A [g] = some [ltg] := by
    rw [TateAlgebraElement.seqLT, hltg]
    rfl
  rw [hseq] at hres
  have hres' : TateAlgebraElement.quoRemLoop A [(g, ltg)] false fuel
      (TateAlgebraElement.add_bigoh f A.cap)
      [TateAlgebraElement.make []
        (((A.cap - TateAlgebraElement.valuation A g : ℤ)) : WithTop ℤ) true]
      (TateAlgebraElement.make [] ((A.cap : ℤ) : WithTop ℤ) true) =
      some (qs, r) := hres
  have hinv0 : TateAlgebraElement.LoopInv A g ltg f
      (TateAlgebraElement.add_bigoh f A.cap)
      (TateAlgebraElement.make []
        (((A.cap - TateAlgebraElement.valuation A g : ℤ)) : WithTop ℤ) true)
      (TateAlgebraElement.make [] ((A.cap : ℤ) : WithTop ℤ) true) := by
    refine ⟨reduceP_sorted _ _ hfs, reduceP_nz _ _, reduceP_len _ _ _ hflen,
      List.Pairwise.nil, ?_, List.Pairwise.nil, ?_, ?_, rfl, rfl, rfl,
      ?_, ?_, ?_⟩
    · intro ec hec
      exact absurd hec (List.not_mem_nil _)
    · intro ec hec
      exact absurd hec (List.not_mem_nil _)
    · intro ec hec
      exact absurd hec (List.not_mem_nil _)
    · intro e
      have hfc : pCoeff (TateAlgebraElement.add_bigoh f A.cap).poly e =
          truncQ (min f.prec ((A.cap : ℤ) : WithTop ℤ))
            (pCoeff f.poly e) := by
        show pCoeff (reduceP (min f.prec ((A.cap : ℤ) : WithTop ℤ))
          f.poly) e = _
        rw [reduceP_pCoeff _ _ hfs]
      rw [hfc,
        show convC (TateAlgebraElement.make []
          (((A.cap - TateAlgebraElement.valuation A g : ℤ)) : WithTop ℤ)
          true).poly g.poly e = 0 from rfl,
        show pCoeff (TateAlgebraElement.make [] ((A.cap : ℤ) : WithTop ℤ)
          true).poly e = 0 from rfl,
        zero_add, zero_add]
      exact truncQ_err _ _
    · intro ec hec
      exact absurd hec (List.not_mem_nil _)
    · intro ec hec
      exact absurd hec (List.not_mem_nil _)
  obtain ⟨q0f, hqs, hq0s, hrs, hident, hnd⟩ :=
    TateAlgebraElement.quoRemLoop_sound A g ltg f hlr hgs hgnz hglen hgprec
      hltg fuel _ _ _ qs r hinv0 hres'
  refine ⟨q0f, hqs, ?_, ?_⟩
  · intro e
    rw [mulP_pCoeff]
    exact hident e
  · intro ltg' hltg' t ht
    rw [hltg] at hltg'
    injection hltg' with h2
    subst h2
    obtain ⟨ec, hec, rfl⟩ := (TateAlgebraElement.mem_terms_iff A r t).1 ht
    exact hnd ec hec

/-- Witness for C2: `x² = x·x + 0` in `Z2<x,y>` with cap 10; the
division loop returns quotient `x` at precision 10 and the zero
remainder at precision 10. -/
theorem quo_rem_division_identity_witness :
    ∃ q0, [exQ0] = [q0] ∧
      (∀ e, min elX2.prec ((exA.cap : ℤ) : WithTop ℤ) ≤
        qvalT (pCoeff elX2.poly e -
          (pCoeff (mulP q0.poly elX.poly) e + pCoeff exR0.poly e))) ∧
      (∀ ltg, TateAlgebraElement.leading_term exA elX = some ltg →
        ∀ t ∈ TateAlgebraElement.terms exA exR0,
          TateAlgebraTerm.is_divisible_by exA t ltg false = false) :=
  quo_rem_division_identity exA elX2 elX [exQ0] exR0 30
    (by with_unfolding_all decide)
    (by with_unfolding_all decide)
    (by with_unfolding_all decide)
    (by with_unfolding_all decide)
    (by with_unfolding_all decide)
    (by with_unfolding_all decide)
    (by with_unfolding_all decide)
    (by with_unfolding_all decide)
    (by with_unfolding_all decide)

/-- Counterexample to the unrestricted C2.  First conjunct: over log
radii `(-1, 1)` with cap 10, dividing `2^9·x·y` by the exact divisor
`x` returns `q = [0 + O(2^9)]` and `r = 0 + O(2^10)` (the factor
`2^9·y` dies in the quotient seeded at precision `cap - val(g) = 9`),
so `f - (q[0]*g + r) = 2^9·x·y` has a coefficient of valuation
`9 < 10 = min(prec(f), cap)` — and its term valuation is also
`9 < 10`, so the identity fails at the stated precision under the
coefficient-wise and the term-valuation reading alike.  Second
conjunct: over zero log-radii, dividing `x + 2^5·y` by the inexact
divisor `x + O(2^3)` drops the running dividend to precision 3,
truncating `2^5·y` away, so the identity fails at `min(prec(f), cap)`:
the exactness hypothesis on the divisor is forced as well. -/
theorem quo_rem_division_identity_cex :
    (TateAlgebraElement.quo_rem exAmix elFxy9 [elX] false 30 =
        some ([⟨[], ((9 : ℤ) : WithTop ℤ)⟩], ⟨[], ((10 : ℤ) : WithTop ℤ)⟩) ∧
      ¬ (min elFxy9.prec ((exAmix.cap : ℤ) : WithTop ℤ) ≤
        qvalT (pCoeff elFxy9.poly [1, 1] -
          (pCoeff (mulP ([] : Poly) elX.poly) [1, 1] +
            pCoeff ([] : Poly) [1, 1])))) ∧
    (TateAlgebraElement.quo_rem exA elFy32x [elXp3] false 30 =
        some ([⟨[([0, 0], 1)], ((10 : ℤ) : WithTop ℤ)⟩],
          ⟨[], ((10 : ℤ) : WithTop ℤ)⟩) ∧
      ¬ (min elFy32x.prec ((exA.cap : ℤ) : WithTop ℤ) ≤
        qvalT (pCoeff elFy32x.poly [0, 1] -
          (pCoeff (mulP [([0, 0], (1 : ℚ))] elXp3.poly) [0, 1] +
            pCoeff ([] : Poly) [0, 1])))) := by
  with_unfolding_all decide

/-- **C9.**  For every element `f` and integer `n` (of any sign),
`f >> n` returns the same result as `f << (-n)`: both delegate to
`_lshift`. -/
theorem rshift_eq_lshift_neg (A : TateAlgebra) (f : TateAlgebraElement)
    (n : ℤ) :
    TateAlgebraElement.rshiftOp A f n = TateAlgebraElement.lshiftOp A f (-n) :=
  rfl

/-- **C10.**  The claim says that on the zero element
`leading_coefficient()` returns the base ring's zero element rather
than failing, while `leading_term()` returns null.  In the code the
zero branch executes `self.base_ring(0)`, a call of the zero-argument
`base_ring` accessor with an argument, which raises a `TypeError`:
`leading_coefficient()` fails on the zero element instead of returning
the base ring's zero, while `leading_term()` does return null. -/
theorem leading_coefficient_on_zero_raises (A : TateAlgebra)
    (f : TateAlgebraElement) (h : f.is_zero = true) :
    TateAlgebraElement.leading_coefficient A f = .error ("TypeError") ∧
      TateAlgebraElement.leading_term A f = none := by
  constructor
  · rw [TateAlgebraElement.leading_coefficient, if_pos h]
  · rw [TateAlgebraElement.leading_term, if_pos h]

/-- Witness for C10 at the concrete zero element. -/
theorem leading_coefficient_on_zero_raises_witness :
    elZero.is_zero = true ∧
      (TateAlgebraElement.leading_coefficient exA elZero =
          .error ("TypeError") ∧
        TateAlgebraElement.leading_term exA elZero = none) :=
  ⟨rfl, leading_coefficient_on_zero_raises exA elZero rfl⟩

/-- **C7.**  `inverse_of_unit()` fails exactly when the element is not
a unit — zero, or leading term with a nonzero exponent, or (non-field
base) leading term of positive valuation — and succeeds otherwise. -/
theorem inverse_of_unit_error_iff (A : TateAlgebra) (f : TateAlgebraElement) :
    isOkE (TateAlgebraElement.inverse_of_unit A f) = false ↔
      (f.is_zero = true ∨
        ∃ t, TateAlgebraElement.leading_term A f = some t ∧
          (TateAlgebraElement.maxExp t.exponent ≠ 0 ∨
            (A.is_field = false ∧ 0 < TateAlgebraTerm.valuation A t))) := by
  rw [← TateAlgebraElement.is_unit_eq_false_iff]
  have hiff := TateAlgebraElement.inverse_of_unit_isOk_iff A f
  constructor
  · intro h
    cases hu : TateAlgebraElement.is_unit A f
    · rfl
    · rw [hiff.2 hu] at h
      exact absurd h (by simp)
  · intro h
    cases hok : isOkE (TateAlgebraElement.inverse_of_unit A f)
    · rfl
    · rw [hiff.1 hok] at h
      exact absurd h (by simp)

/-- **C4** (counterexample).  The terms `1` and `3` (same exponent,
both of valuation 0) are distinct yet compare equal: `_cmp_` only
inspects the valuation and the exponent, never the coefficient's unit
part, so it is not a strict total order on terms. -/
theorem cmp_eq_on_distinct_terms :
    TateAlgebraTerm.cmp exA ⟨1, [0, 0]⟩ ⟨3, [0, 0]⟩ = .eq ∧
      (⟨1, [0, 0]⟩ : TateAlgebraTerm) ≠ ⟨3, [0, 0]⟩ := by
  constructor
  · with_unfolding_all decide
  · with_unfolding_all decide

/-- **C4** (amended).  Term comparison is antisymmetric and transitive,
and reports two terms equal exactly when they have the same valuation
and the same exponent vector (their coefficients may differ by a unit). -/
theorem cmp_strict_total_up_to_val_exponent (A : TateAlgebra) :
    (∀ t u : TateAlgebraTerm, TateAlgebraTerm.cmp A t u = .eq ↔
        (TateAlgebraTerm.valuation A t = TateAlgebraTerm.valuation A u ∧
          t.exponent = u.exponent)) ∧
    (∀ t u : TateAlgebraTerm,
        TateAlgebraTerm.cmp A u t = (TateAlgebraTerm.cmp A t u).swap) ∧
    (∀ t u w : TateAlgebraTerm, TateAlgebraTerm.cmp A t u = .lt →
        TateAlgebraTerm.cmp A u w = .lt → TateAlgebraTerm.cmp A t w = .lt) :=
  ⟨TateAlgebraTerm.cmp_eq_iff A, TateAlgebraTerm.cmp_swap A,
    TateAlgebraTerm.cmp_lt_trans A⟩

/-- **C8** (counterexample).  With log radius 1, the gcd of the term
`2x` with itself has coefficient `2` (`uniformizer^min` of the two
**coefficient** valuations), not `uniformizer^min` of the two **term**
valuations (which is `2^0 = 1`) as the claim states. -/
theorem gcd_uses_coefficient_valuations :
    TateAlgebraTerm.gcd exT1 exT1 = ⟨2, [1]⟩ ∧
      gcdSpecClaim exA1 exT1 exT1 = ⟨1, [1]⟩ ∧
      TateAlgebraTerm.gcd exT1 exT1 ≠ gcdSpecClaim exA1 exT1 exT1 := by
  refine ⟨by with_unfolding_all decide, by with_unfolding_all decide,
    by with_unfolding_all decide⟩

/-- **C8** (amended).  `gcd` (resp. `lcm`) returns the componentwise
min (resp. max) exponent, and a coefficient that is a pure uniformizer
power whose valuation is the min (resp. max) of the two
**coefficients'** valuations — the unit parts of the coefficients are
ignored. -/
theorem gcd_lcm_formula (t u : TateAlgebraTerm) (ht : t.coeff ≠ 0)
    (hu : u.coeff ≠ 0) :
    (TateAlgebraTerm.gcd t u).exponent = emin t.exponent u.exponent ∧
    qvalT (TateAlgebraTerm.gcd t u).coeff = min (qvalT t.coeff) (qvalT u.coeff) ∧
    (TateAlgebraTerm.gcd t u).coeff =
      two_zpow (qval (TateAlgebraTerm.gcd t u).coeff) ∧
    (TateAlgebraTerm.lcm t u).exponent = emax t.exponent u.exponent ∧
    qvalT (TateAlgebraTerm.lcm t u).coeff = max (qvalT t.coeff) (qvalT u.coeff) ∧
    (TateAlgebraTerm.lcm t u).coeff =
      two_zpow (qval (TateAlgebraTerm.lcm t u).coeff) := by
  refine ⟨rfl, ?_, ?_, rfl, ?_, ?_⟩
  · show qvalT (two_zpow (min (qval t.coeff) (qval u.coeff))) = _
    rw [qvalT_two_zpow, qvalT_ne_zero _ ht, qvalT_ne_zero _ hu]
    exact_mod_cast rfl
  · show two_zpow (min (qval t.coeff) (qval u.coeff)) =
      two_zpow (qval (two_zpow (min (qval t.coeff) (qval u.coeff))))
    rw [qval_two_zpow]
  · show qvalT (two_zpow (max (qval t.coeff) (qval u.coeff))) = _
    rw [qvalT_two_zpow, qvalT_ne_zero _ ht, qvalT_ne_zero _ hu]
    exact_mod_cast rfl
  · show two_zpow (max (qval t.coeff) (qval u.coeff)) =
      two_zpow (qval (two_zpow (max (qval t.coeff) (qval u.coeff))))
    rw [qval_two_zpow]

/-- Witness for the amended C8, at the term `2x` against itself. -/
theorem gcd_lcm_formula_witness :
    exT1.coeff ≠ 0 ∧
      ((TateAlgebraTerm.gcd exT1 exT1).exponent =
          emin exT1.exponent exT1.exponent ∧
        qvalT (TateAlgebraTerm.gcd exT1 exT1).coeff =
          min (qvalT exT1.coeff) (qvalT exT1.coeff) ∧
        (TateAlgebraTerm.gcd exT1 exT1).coeff =
          two_zpow (qval (TateAlgebraTerm.gcd exT1 exT1).coeff) ∧
        (TateAlgebraTerm.lcm exT1 exT1).exponent =
          emax exT1.exponent exT1.exponent ∧
        qvalT (TateAlgebraTerm.lcm exT1 exT1).coeff =
          max (qvalT exT1.coeff) (qvalT exT1.coeff) ∧
        (TateAlgebraTerm.lcm exT1 exT1).coeff =
          two_zpow (qval (TateAlgebraTerm.lcm exT1 exT1).coeff)) :=
  ⟨by with_unfolding_all decide,
    gcd_lcm_formula exT1 exT1 (by with_unfolding_all decide)
      (by with_unfolding_all decide)⟩

/-- **C3** (code bug).  `f = 2` over the field base is a unit, but the
Newton inversion iterates on the unshifted `self` and reapplies the
uniformizer power `v = 1` with the **same** sign (`inv << v`), so the
computed inverse is `0` and `(f * f.inverse_of_unit()).add_bigoh(N)`
differs from `1.add_bigoh(N)`. -/
theorem inverse_of_unit_two_wrong :
    TateAlgebraElement.is_unit exAF elTwo = true ∧
    (TateAlgebraElement.inverse_of_unit exAF elTwo).toOption.map
        (fun finv => (TateAlgebraElement.mul exAF elTwo finv).add_bigoh 10) ≠
      some (elOneF.add_bigoh 10) := by
  constructor
  · with_unfolding_all decide
  · with_unfolding_all decide

/-- **C5** (counterexample).  Constructing the element `x` of
`Z2⟨x⟩` with log radius 0 into the algebra with log radius 1: every
target log-radius is ≥ the scaled source log-radius (1 ≥ 0), so the
claim predicts success, yet the code raises
"Cannot restrict to a bigger domain". -/
theorem ofElement_rejects_larger_log_radii :
    exS5.names = exA1.names ∧ exS5 ≠ exA1 ∧
    (∀ rr ∈ exA1.log_radii.zip exS5.log_radii,
        (rr.2 : ℚ) * ((exA1.abs_e : ℚ) / (exS5.abs_e : ℚ)) ≤ (rr.1 : ℚ)) ∧
    isOkE (TateAlgebraElement.ofElement exA1 exS5 elX1S ⊤) = false := by
  refine ⟨rfl, by decide, by with_unfolding_all decide,
    by with_unfolding_all decide⟩

/-- **C5** (amended).  Construction from an Element or Term of a
different ambient algebra with identical variable names fails exactly
when the target's log-radii are not each **≤** the source's scaled by
the ratio of ramification indices: restricting to a smaller
convergence domain (smaller log-radii) is legal, extrapolating to a
larger one is not. -/
theorem ofElement_ok_iff (P S : TateAlgebra) (x : TateAlgebraElement)
    (t : TateAlgebraTerm) (pr : WithTop ℤ)
    (hne : S ≠ P) (hnames : S.names = P.names) :
    (isOkE (TateAlgebraElement.ofElement P S x pr) = true ↔
      ∀ rr ∈ P.log_radii.zip S.log_radii,
        (rr.1 : ℚ) ≤ (rr.2 : ℚ) * ((P.abs_e : ℚ) / (S.abs_e : ℚ))) ∧
    (isOkE (TateAlgebraElement.ofTermOf P S t pr) = true ↔
      ∀ rr ∈ P.log_radii.zip S.log_radii,
        (rr.1 : ℚ) ≤ (rr.2 : ℚ) * ((P.abs_e : ℚ) / (S.abs_e : ℚ))) := by
  have key :
      ((P.log_radii.zip S.log_radii).any
        (fun rr => decide ((rr.1 : ℚ) >
          (rr.2 : ℚ) * ((P.abs_e : ℚ) / (S.abs_e : ℚ)))) = false ↔
        ∀ rr ∈ P.log_radii.zip S.log_radii,
          (rr.1 : ℚ) ≤ (rr.2 : ℚ) * ((P.abs_e : ℚ) / (S.abs_e : ℚ))) := by
    rw [List.any_eq_false]
    constructor
    · intro h rr hrr
      have h2 := h rr hrr
      simpa [not_lt] using h2
    · intro h rr hrr
      simpa [not_lt] using h rr hrr
  constructor
  · rw [TateAlgebraElement.ofElement, if_neg hne, if_pos hnames]
    cases hany : (P.log_radii.zip S.log_radii).any
        (fun rr => decide ((rr.1 : ℚ) >
          (rr.2 : ℚ) * ((P.abs_e : ℚ) / (S.abs_e : ℚ)))) with
    | false =>
      rw [if_neg (by simp)]
      simp only [isOkE]
      exact ⟨fun _ => key.1 hany, fun _ => trivial⟩
    | true =>
      rw [if_pos rfl]
      simp only [isOkE]
      constructor
      · intro hcon
        exact absurd hcon (by simp)
      · intro hall
        have hfalse := key.2 hall
        rw [hany] at hfalse
        exact absurd hfalse (by simp)
  · rw [TateAlgebraElement.ofTermOf, if_pos hnames]
    cases hany : (P.log_radii.zip S.log_radii).any
        (fun rr => decide ((rr.1 : ℚ) >
          (rr.2 : ℚ) * ((P.abs_e : ℚ) / (S.abs_e : ℚ)))) with
    | false =>
      rw [if_neg (by simp)]
      simp only [isOkE]
      exact ⟨fun _ => key.1 hany, fun _ => trivial⟩
    | true =>
      rw [if_pos rfl]
      simp only [isOkE]
      constructor
      · intro hcon
        exact absurd hcon (by simp)
      · intro hall
        have hfalse := key.2 hall
        rw [hany] at hfalse
        exact absurd hfalse (by simp)

/-- Witness for the amended C5: restricting `x` from log radius 1 to
log radius 0 (a smaller domain) succeeds, and the iff instantiates. -/
theorem ofElement_ok_iff_witness :
    exA1 ≠ exS5 ∧ exA1.names = exS5.names ∧
    ((isOkE (TateAlgebraElement.ofElement exS5 exA1 elX1S ⊤) = true ↔
      ∀ rr ∈ exS5.log_radii.zip exA1.log_radii,
        (rr.1 : ℚ) ≤ (rr.2 : ℚ) * ((exS5.abs_e : ℚ) / (exA1.abs_e : ℚ))) ∧
    (isOkE (TateAlgebraElement.ofTermOf exS5 exA1 exT1 ⊤) = true ↔
      ∀ rr ∈ exS5.log_radii.zip exA1.log_radii,
        (rr.1 : ℚ) ≤ (rr.2 : ℚ) * ((exS5.abs_e : ℚ) / (exA1.abs_e : ℚ)))) :=
  ⟨by decide, rfl, ofElement_ok_iff exS5 exA1 elX1S exT1 ⊤ (by decide) rfl⟩

/-- **C6** (code bug).  `reduce` returns the full `(quotients,
remainder)` pair produced by `quo_rem`, not the remainder alone:
dividing `x^2` by the basis `[x]` yields the pair `([x], 0)`. -/
theorem reduce_returns_pair :
    TateAlgebraElement.reduce exA elX2 ⟨[elX]⟩ 30 =
      some ([⟨[([1, 0], 1)], ((10 : ℤ) : WithTop ℤ)⟩],
        ⟨[], ((10 : ℤ) : WithTop ℤ)⟩) ∧
    (TateAlgebraElement.quo_rem exA elX2 [elX] false 30).map Prod.snd =
      some ⟨[], ((10 : ℤ) : WithTop ℤ)⟩ := by
  constructor
  · with_unfolding_all decide
  · with_unfolding_all decide

end TateAlg
